import Mathlib

/-!
A shallow embedding of the OpenAI protocol-bridging layer of this repository:
message normalization (`toOpenAIMessages`), tool accounting (`getToolCounts`),
the chat-protocol streaming delta accumulator, the SSE stream parser, the
response adapters, the Responses-to-Chat fallback decision of `generate`, and
the retry policy.  JavaScript strings are modelled as lists of characters and
`JSON.parse` / `JSON.stringify` by an executable parser and serializer over
`JsonVal` (numbers keep their lexeme, since no claim depends on numeric
arithmetic).
-/

set_option maxHeartbeats 1000000

abbrev Chars := List Char

/-- Coerce a Lean string literal to the character-list representation. -/
def str (s : String) : Chars := s.data

/-- The character `{`. -/
def lbrace : Char := Char.ofNat 123

/-- The character `}`. -/
def rbrace : Char := Char.ofNat 125

/-- JSON whitespace as accepted by `JSON.parse`; also used to model
`String.prototype.trim` for the ASCII strings this layer handles. -/
def isJsonWs (c : Char) : Bool := c = ' ' || c = '\t' || c = '\n' || c = '\r'

def skipWs (cs : Chars) : Chars := cs.dropWhile isJsonWs

/-- Model of `s.trim()` (both ends). -/
def trimWs (cs : Chars) : Chars :=
  ((cs.dropWhile isJsonWs).reverse.dropWhile isJsonWs).reverse

/-- Model of `s.trim().endsWith('}')`. -/
def trimEndsWithRBrace (cs : Chars) : Bool := (trimWs cs).getLast? = some rbrace

/-- A JavaScript JSON value.  A number is kept as its source lexeme: the
claims never compute with numbers, only compare parses of equal texts. -/
inductive JsonVal where
  | jnull : JsonVal
  | jbool (b : Bool) : JsonVal
  | jstr (s : Chars) : JsonVal
  | jnum (lexeme : Chars) : JsonVal
  | jarr (elems : List JsonVal) : JsonVal
  | jobj (members : List (Chars × JsonVal)) : JsonVal

mutual

def JsonVal.beq : JsonVal → JsonVal → Bool
  | .jnull, .jnull => true
  | .jbool a, .jbool b => a == b
  | .jstr a, .jstr b => a == b
  | .jnum a, .jnum b => a == b
  | .jarr a, .jarr b => JsonVal.beqList a b
  | .jobj a, .jobj b => JsonVal.beqMembers a b
  | _, _ => false

def JsonVal.beqList : List JsonVal → List JsonVal → Bool
  | [], [] => true
  | x :: xs, y :: ys => JsonVal.beq x y && JsonVal.beqList xs ys
  | _, _ => false

def JsonVal.beqMembers : List (Chars × JsonVal) → List (Chars × JsonVal) → Bool
  | [], [] => true
  | (k, v) :: xs, (l, w) :: ys =>
    k == l && JsonVal.beq v w && JsonVal.beqMembers xs ys
  | _, _ => false

end

mutual

theorem JsonVal.beq_iff : ∀ a b : JsonVal, JsonVal.beq a b = true ↔ a = b
  | .jnull, .jnull => by simp [JsonVal.beq]
  | .jbool _, .jbool _ => by simp [JsonVal.beq]
  | .jstr _, .jstr _ => by simp [JsonVal.beq]
  | .jnum _, .jnum _ => by simp [JsonVal.beq]
  | .jarr x, .jarr y => by simp [JsonVal.beq, JsonVal.beqList_iff x y]
  | .jobj x, .jobj y => by simp [JsonVal.beq, JsonVal.beqMembers_iff x y]
  | .jnull, .jbool _ | .jnull, .jstr _ | .jnull, .jnum _ | .jnull, .jarr _
  | .jnull, .jobj _ | .jbool _, .jnull | .jbool _, .jstr _ | .jbool _, .jnum _
  | .jbool _, .jarr _ | .jbool _, .jobj _ | .jstr _, .jnull | .jstr _, .jbool _
  | .jstr _, .jnum _ | .jstr _, .jarr _ | .jstr _, .jobj _ | .jnum _, .jnull
  | .jnum _, .jbool _ | .jnum _, .jstr _ | .jnum _, .jarr _ | .jnum _, .jobj _
  | .jarr _, .jnull | .jarr _, .jbool _ | .jarr _, .jstr _ | .jarr _, .jnum _
  | .jarr _, .jobj _ | .jobj _, .jnull | .jobj _, .jbool _ | .jobj _, .jstr _
  | .jobj _, .jnum _ | .jobj _, .jarr _ => by simp [JsonVal.beq]

theorem JsonVal.beqList_iff : ∀ xs ys : List JsonVal,
    JsonVal.beqList xs ys = true ↔ xs = ys
  | [], [] => by simp [JsonVal.beqList]
  | x :: xs, y :: ys => by
    simp [JsonVal.beqList, JsonVal.beq_iff x y, JsonVal.beqList_iff xs ys]
  | [], _ :: _ => by simp [JsonVal.beqList]
  | _ :: _, [] => by simp [JsonVal.beqList]

theorem JsonVal.beqMembers_iff : ∀ xs ys : List (Chars × JsonVal),
    JsonVal.beqMembers xs ys = true ↔ xs = ys
  | [], [] => by simp [JsonVal.beqMembers]
  | (k, v) :: xs, (l, w) :: ys => by
    simp [JsonVal.beqMembers, JsonVal.beq_iff v w, JsonVal.beqMembers_iff xs ys,
      Prod.ext_iff, and_assoc]
  | [], _ :: _ => by simp [JsonVal.beqMembers]
  | _ :: _, [] => by simp [JsonVal.beqMembers]

end

instance : DecidableEq JsonVal := fun a b =>
  decidable_of_iff (JsonVal.beq a b = true) (JsonVal.beq_iff a b)

def JsonVal.isNum : JsonVal → Bool
  | .jnum _ => true
  | _ => false

/-- Chars that can occur in a JSON number lexeme. -/
def isNumChar (c : Char) : Bool :=
  c.isDigit || c = '-' || c = '+' || c = '.' || c = 'e' || c = 'E'

def digitsSpan (cs : Chars) : Chars × Chars :=
  (cs.takeWhile Char.isDigit, cs.dropWhile Char.isDigit)

/-- Integer part of a JSON number: `0` or a nonzero digit followed by digits. -/
def parseIntPart : Chars → Option (Chars × Chars)
  | [] => none
  | c :: t =>
    if c = '0' then some ([c], t)
    else if c.isDigit then some (c :: (digitsSpan t).1, (digitsSpan t).2)
    else none

/-- Optional fraction part: `.` followed by one or more digits. -/
def parseFracPart (cs : Chars) : Option (Chars × Chars) :=
  match cs with
  | '.' :: t =>
    if (digitsSpan t).1 = [] then none
    else some ('.' :: (digitsSpan t).1, (digitsSpan t).2)
  | _ => some ([], cs)

/-- Optional sign at the head of an exponent. -/
def expSign : Chars → Chars × Chars
  | s :: t3 => if s = '+' || s = '-' then ([s], t3) else ([], s :: t3)
  | [] => ([], [])

/-- Optional exponent part: `e`/`E`, optional sign, one or more digits. -/
def parseExpPart (cs : Chars) : Option (Chars × Chars) :=
  match cs with
  | c :: t =>
    if c = 'e' || c = 'E' then
      if (digitsSpan (expSign t).2).1 = [] then none
      else some (c :: (expSign t).1 ++ (digitsSpan (expSign t).2).1,
        (digitsSpan (expSign t).2).2)
    else some ([], cs)
  | [] => some ([], cs)

/-- Optional leading minus sign of a number. -/
def numSign : Chars → Chars × Chars
  | c :: t => if c = '-' then ([c], t) else ([], c :: t)
  | [] => ([], [])

/-- A JSON number per the `JSON.parse` grammar; returns the lexeme and rest. -/
def parseNumber (cs : Chars) : Option (Chars × Chars) :=
  match parseIntPart (numSign cs).2 with
  | none => none
  | some (ip, cs2) =>
    match parseFracPart cs2 with
    | none => none
    | some (fp, cs3) =>
      match parseExpPart cs3 with
      | none => none
      | some (ep, cs4) => some ((numSign cs).1 ++ ip ++ fp ++ ep, cs4)

def hexVal (c : Char) : Option Nat :=
  if c.isDigit then some (c.toNat - '0'.toNat)
  else if 'a' ≤ c ∧ c ≤ 'f' then some (c.toNat - 'a'.toNat + 10)
  else if 'A' ≤ c ∧ c ≤ 'F' then some (c.toNat - 'A'.toNat + 10)
  else none

def escChar (c : Char) : Option Char :=
  if c = '"' then some '"'
  else if c = '\\' then some '\\'
  else if c = '/' then some '/'
  else if c = 'b' then some (Char.ofNat 8)
  else if c = 'f' then some (Char.ofNat 12)
  else if c = 'n' then some '\n'
  else if c = 'r' then some '\r'
  else if c = 't' then some '\t'
  else none

/-- Body of a JSON string after the opening quote; fuel-indexed. -/
def parseStringRest : Nat → Chars → Option (Chars × Chars)
  | 0, _ => none
  | _ + 1, [] => none
  | f + 1, c :: rest =>
    if c = '"' then some ([], rest)
    else if c = '\\' then
      match rest with
      | [] => none
      | e :: rest2 =>
        if e = 'u' then
          match rest2 with
          | h1 :: h2 :: h3 :: h4 :: rest3 =>
            match hexVal h1, hexVal h2, hexVal h3, hexVal h4 with
            | some a, some b, some c3, some d =>
              (parseStringRest f rest3).map
                (fun p => (Char.ofNat (((a * 16 + b) * 16 + c3) * 16 + d) :: p.1, p.2))
            | _, _, _, _ => none
          | _ => none
        else
          match escChar e with
          | some d => (parseStringRest f rest2).map (fun p => (d :: p.1, p.2))
          | none => none
    else if c.toNat < 32 then none
    else (parseStringRest f rest).map (fun p => (c :: p.1, p.2))

mutual

/-- A JSON value with surrounding handling as in `JSON.parse`: leading
whitespace is skipped, then the value is dispatched on its first character. -/
def parseValue : Nat → Chars → Option (JsonVal × Chars)
  | 0, _ => none
  | f + 1, cs0 =>
    match skipWs cs0 with
    | [] => none
    | c :: rest =>
      if c = lbrace then parseObjBody f rest
      else if c = '[' then parseArrBody f rest
      else if c = '"' then
        (parseStringRest f rest).map (fun p => (JsonVal.jstr p.1, p.2))
      else if c = 't' then
        match rest with
        | 'r' :: 'u' :: 'e' :: r => some (JsonVal.jbool true, r)
        | _ => none
      else if c = 'f' then
        match rest with
        | 'a' :: 'l' :: 's' :: 'e' :: r => some (JsonVal.jbool false, r)
        | _ => none
      else if c = 'n' then
        match rest with
        | 'u' :: 'l' :: 'l' :: r => some (JsonVal.jnull, r)
        | _ => none
      else if c = '-' || c.isDigit then
        (parseNumber (c :: rest)).map (fun p => (JsonVal.jnum p.1, p.2))
      else none

/-- Object body after `{`: either an immediate `}` or a member list. -/
def parseObjBody : Nat → Chars → Option (JsonVal × Chars)
  | 0, _ => none
  | f + 1, cs =>
    match skipWs cs with
    | c :: rest =>
      if c = rbrace then some (JsonVal.jobj [], rest)
      else parseMembers f (c :: rest)
    | [] => none

/-- One or more `"key": value` members, separated by commas, ended by `}`. -/
def parseMembers : Nat → Chars → Option (JsonVal × Chars)
  | 0, _ => none
  | f + 1, cs =>
    match skipWs cs with
    | [] => none
    | c0 :: r =>
      if c0 = '"' then
        match parseStringRest f r with
        | none => none
        | some (key, r1) =>
          match skipWs r1 with
          | [] => none
          | c1 :: r2 =>
            if c1 = ':' then
              match parseValue f r2 with
              | none => none
              | some (v, r3) =>
                match skipWs r3 with
                | [] => none
                | c :: r4 =>
                  if c = rbrace then some (JsonVal.jobj [(key, v)], r4)
                  else if c = ',' then
                    match parseMembers f r4 with
                    | some (JsonVal.jobj ms, r5) =>
                      some (JsonVal.jobj ((key, v) :: ms), r5)
                    | _ => none
                  else none
            else none
      else none

/-- Array body after `[`: either an immediate `]` or an element list. -/
def parseArrBody : Nat → Chars → Option (JsonVal × Chars)
  | 0, _ => none
  | f + 1, cs =>
    match skipWs cs with
    | c :: rest =>
      if c = ']' then some (JsonVal.jarr [], rest)
      else parseElems f (c :: rest)
    | [] => none

/-- One or more array elements, separated by commas, ended by `]`. -/
def parseElems : Nat → Chars → Option (JsonVal × Chars)
  | 0, _ => none
  | f + 1, cs =>
    match parseValue f cs with
    | none => none
    | some (v, r) =>
      match skipWs r with
      | c :: r2 =>
        if c = ']' then some (JsonVal.jarr [v], r2)
        else if c = ',' then
          match parseElems f r2 with
          | some (JsonVal.jarr vs, r3) => some (JsonVal.jarr (v :: vs), r3)
          | _ => none
        else none
      | [] => none

end

/-- Fuel that is always sufficient for `parseValue` on `cs`: every three fuel
steps at least one character is consumed, plus slack for the outermost hops. -/
def jsonFuel (cs : Chars) : Nat := 3 * cs.length + 8

/-- Model of `JSON.parse(s)`: parse one value and require the rest of the
input to be whitespace; `none` models a thrown `SyntaxError`. -/
def jsonParse (cs : Chars) : Option JsonVal :=
  match parseValue (jsonFuel cs) cs with
  | some (v, rest) => if skipWs rest = [] then some v else none
  | none => none

/-- Escape one character as inside a `JSON.stringify` string literal. -/
def quoteChar (c : Char) : Chars :=
  if c = '"' then ['\\', '"']
  else if c = '\\' then ['\\', '\\']
  else if c = '\n' then ['\\', 'n']
  else if c = '\r' then ['\\', 'r']
  else if c = '\t' then ['\\', 't']
  else if c = Char.ofNat 8 then ['\\', 'b']
  else if c = Char.ofNat 12 then ['\\', 'f']
  else if c.toNat < 32 then
    let hx : Nat → Char := fun n => if n < 10 then Char.ofNat ('0'.toNat + n)
      else Char.ofNat ('a'.toNat + (n - 10))
    ['\\', 'u', '0', '0', hx (c.toNat / 16), hx (c.toNat % 16)]
  else [c]

def quoteString (s : Chars) : Chars :=
  '"' :: (s.flatMap quoteChar) ++ ['"']

mutual

/-- Model of `JSON.stringify` on a JSON value (numbers keep their lexeme). -/
def jsonStringify : JsonVal → Chars
  | .jnull => str "null"
  | .jbool true => str "true"
  | .jbool false => str "false"
  | .jstr s => quoteString s
  | .jnum lex => lex
  | .jarr es => '[' :: stringifyElems es ++ [']']
  | .jobj ms => lbrace :: stringifyMembers ms ++ [rbrace]

def stringifyElems : List JsonVal → Chars
  | [] => []
  | [v] => jsonStringify v
  | v :: vs => jsonStringify v ++ ',' :: stringifyElems vs

def stringifyMembers : List (Chars × JsonVal) → Chars
  | [] => []
  | [(k, v)] => quoteString k ++ ':' :: jsonStringify v
  | (k, v) :: ms => quoteString k ++ ':' :: jsonStringify v ++ ',' :: stringifyMembers ms

end

/-! ## Message normalization (`messages.ts`, `toOpenAIMessages`) -/

/-- A caller-supplied tool invocation fragment (`functionCall`). -/
structure FunctionCallT where
  name : Option Chars
  id : Option Chars
  args : Option JsonVal
deriving DecidableEq

/-- A caller-supplied tool result fragment (`functionResponse`). -/
structure FunctionResponseT where
  name : Option Chars
  id : Option Chars
  response : Option JsonVal
deriving DecidableEq

/-- A conversation part: text, a tool invocation, or a tool result. -/
structure PartT where
  text : Option Chars := none
  functionCall : Option FunctionCallT := none
  functionResponse : Option FunctionResponseT := none
deriving DecidableEq

/-- A conversation turn (`Content`). -/
structure ContentT where
  role : Option Chars
  parts : Option (List PartT)
deriving DecidableEq

/-- The `ContentListUnion` input: the constructors record the outcome of the
dynamic discrimination the function performs (`typeof contents === 'string'`,
`Array.isArray` plus the "no `role` key on any element" part-array test). -/
inductive GenContents where
  | ofString (s : Chars)
  | ofParts (ps : List PartT)
  | ofContents (cs : List ContentT)
  | ofContent (c : ContentT)

/-- One entry of an assistant message's `tool_calls` array (`type` is always
the literal `'function'` and is left implicit). -/
structure ToolCallT where
  id : Chars
  name : Option Chars
  arguments : Chars
deriving DecidableEq

/-- A normalized provider message. -/
inductive NormMsg where
  | openMsg (role : Chars) (content : Chars) (tool_calls : Option (List ToolCallT))
  | toolMsg (tool_call_id : Chars) (content : Chars)
deriving DecidableEq

/-- Truthiness of an optional JS string (`undefined` and `''` are falsy). -/
def strTruthy : Option Chars → Bool
  | some s => s ≠ []
  | none => false

/-- Insertion-ordered set insert, as for a JS `Set`. -/
def addSet (s : List Chars) (x : Chars) : List Chars :=
  if x ∈ s then s else s ++ [x]

/-- Lookup in an insertion-ordered string-keyed map, as for a JS `Map`. -/
def qGet (m : List (Chars × List Chars)) (k : Chars) : Option (List Chars) :=
  (m.find? (fun p => p.1 = k)).map (·.2)

/-- Update in an insertion-ordered string-keyed map. -/
def qSet (m : List (Chars × List Chars)) (k : Chars) (v : List Chars) :
    List (Chars × List Chars) :=
  match m with
  | [] => [(k, v)]
  | (k1, v1) :: t => if k1 = k then (k, v) :: t else (k1, v1) :: qSet t k v

/-- The generated identifier `` `${name || 'tool'}-${Date.now()}-${...}` ``.
The timestamp-and-randomness suffix is abstracted as the oracle `uniq`
applied to a per-pass generation counter. -/
def genToolCallId (uniq : Nat → Chars) (k : Nat) (name : Option Chars) : Chars :=
  (match name with
    | some n => if n = [] then str "tool" else n
    | none => str "tool") ++ '-' :: uniq k

/-- The mapped role: `'model'` becomes `assistant`, `'system'` stays, anything
else (including a missing role) becomes `user`. -/
def roleOf (c : ContentT) : Chars :=
  match c.role with
  | some r =>
    if r = str "model" then str "assistant"
    else if r = str "system" then str "system"
    else str "user"
  | none => str "user"

/-- Concatenated turn text: string parts, empty ones dropped, joined by a
blank line. -/
def turnText (parts : List PartT) : Chars :=
  List.intercalate (str "\n\n") ((parts.filterMap (·.text)).filter (· ≠ []))

/-- Extraction of the `tool_calls` array of one turn, threading the pending
per-name queues, the declared-identifier set and the generation counter. -/
def extractToolCalls (uniq : Nat → Chars) :
    List PartT → List (Chars × List Chars) → List Chars → Nat →
    List ToolCallT × List (Chars × List Chars) × List Chars × Nat
  | [], pending, allIds, counter => ([], pending, allIds, counter)
  | p :: rest, pending, allIds, counter =>
    match p.functionCall with
    | none => extractToolCalls uniq rest pending allIds counter
    | some fc =>
      let (id, counter1) :=
        if strTruthy fc.id then ((fc.id.getD []), counter)
        else (genToolCallId uniq counter fc.name, counter + 1)
      let pending1 :=
        if strTruthy fc.name then
          qSet pending (fc.name.getD []) ((qGet pending (fc.name.getD [])).getD [] ++ [id])
        else pending
      let allIds1 := addSet allIds id
      let tc : ToolCallT :=
        { id := id, name := fc.name, arguments := jsonStringify (fc.args.getD (.jobj [])) }
      let (tcs, pending2, allIds2, counter2) :=
        extractToolCalls uniq rest pending1 allIds1 counter1
      (tc :: tcs, pending2, allIds2, counter2)

/-- The `functionResponse` object serialized as `JSON.stringify(fr)` would:
fields in declaration order, missing ones omitted. -/
def frAsJson (fr : FunctionResponseT) : JsonVal :=
  .jobj ((match fr.name with | some n => [(str "name", JsonVal.jstr n)] | none => []) ++
    (match fr.id with | some i => [(str "id", JsonVal.jstr i)] | none => []) ++
    (match fr.response with | some r => [(str "response", r)] | none => []))

/-- First string-valued field of the given name on an object value, with the
surrounding `resp && typeof resp.f === 'string'` truthiness test. -/
def objStrField (v : JsonVal) (k : String) : Option Chars :=
  match v with
  | .jobj ms => match ms.find? (fun p => p.1 = str k) with
    | some (_, .jstr s) => some s
    | _ => none
  | _ => none

/-- The textual payload extracted from a `functionResponse`: the response
itself when it is a string; else its `llmContent`/`output`/`result`/`error`
string field; else its JSON serialization (`response ?? fr` — a `null`
response falls back to serializing the whole fragment). -/
def frPayload (fr : FunctionResponseT) : Chars :=
  match fr.response with
  | some (.jstr s) => s
  | some .jnull => jsonStringify (frAsJson fr)
  | some r =>
    match objStrField r "llmContent" with
    | some s => s
    | none => match objStrField r "output" with
      | some s => s
      | none => match objStrField r "result" with
        | some s => s
        | none => match objStrField r "error" with
          | some s => s
          | none => jsonStringify r
  | none => jsonStringify (frAsJson fr)

/-- Identifier resolution for one tool result: the explicit identifier when it
matches a declared call; else the oldest pending identifier for the tool
name (consuming it); an unknown explicit identifier is kept as-is.  Returns
the resolved identifier (`[]` when the result must be skipped) and the
updated queues. -/
def resolveToolCallId (fr : FunctionResponseT)
    (pending : List (Chars × List Chars)) (allIds : List Chars) :
    Chars × List (Chars × List Chars) :=
  let tid0 := fr.id.getD []
  if tid0 = [] ∨ tid0 ∉ allIds then
    if strTruthy fr.name then
      match qGet pending (fr.name.getD []) with
      | some (q :: qs) => (q, qSet pending (fr.name.getD []) qs)
      | _ => (tid0, pending)
    else (tid0, pending)
  else (tid0, pending)

/-- The `tool` message content: `{name, result, extra_text?}` where `result`
is the parsed payload when it parses and the raw payload string otherwise. -/
def toolResultContent (fr : FunctionResponseT) (role text : Chars) : Chars :=
  let resultVal := match jsonParse (frPayload fr) with
    | some v => v
    | none => JsonVal.jstr (frPayload fr)
  jsonStringify (.jobj
    ((match fr.name with | some n => [(str "name", JsonVal.jstr n)] | none => []) ++
      [(str "result", resultVal)] ++
      (if role ≠ str "assistant" ∧ text ≠ [] then
        [(str "extra_text", JsonVal.jstr text)] else [])))

/-- The per-turn loop over `functionResponse` parts, emitting `tool` messages
and recording consumed identifiers. -/
def processFRs (role text : Chars) (allIds : List Chars) :
    List PartT → List NormMsg → List (Chars × List Chars) → List Chars →
    List NormMsg × List (Chars × List Chars) × List Chars
  | [], out, pending, usedIds => (out, pending, usedIds)
  | p :: rest, out, pending, usedIds =>
    match p.functionResponse with
    | none => processFRs role text allIds rest out pending usedIds
    | some fr =>
      let (tid, pending1) := resolveToolCallId fr pending allIds
      if tid = [] then processFRs role text allIds rest out pending1 usedIds
      else
        processFRs role text allIds rest
          (out ++ [.toolMsg tid (toolResultContent fr role text)])
          pending1 (addSet usedIds tid)

/-- The mutable tables of one normalization pass. -/
structure ScanState where
  out : List NormMsg
  pending : List (Chars × List Chars)
  allIds : List Chars
  usedIds : List Chars
  counter : Nat

def initScan : ScanState := ⟨[], [], [], [], 0⟩

/-- Processing of one turn: text and tool calls are extracted, an assistant
turn with text or calls becomes one message, another role's plain text (with
no tool result in the turn) becomes one message, and every `functionResponse`
part becomes a `tool` message via `processFRs`. -/
def scanContent (uniq : Nat → Chars) (st : ScanState) (c : ContentT) : ScanState :=
  let role := roleOf c
  let parts := c.parts.getD []
  let text := turnText parts
  let (tcs, pending1, allIds1, counter1) :=
    extractToolCalls uniq parts st.pending st.allIds st.counter
  let hasFR := parts.any (·.functionResponse.isSome)
  let out1 :=
    if role = str "assistant" then
      if text ≠ [] ∨ tcs ≠ [] then
        st.out ++ [.openMsg role text (if tcs ≠ [] then some tcs else none)]
      else st.out
    else
      if text ≠ [] ∧ trimWs text ≠ [] ∧ ¬hasFR then
        st.out ++ [.openMsg role text none]
      else st.out
  let (out2, pending2, usedIds2) :=
    processFRs role text allIds1 parts out1 pending1 st.usedIds
  ⟨out2, pending2, allIds1, usedIds2, counter1⟩

/-- The first pruning pass: when some declared identifier was never consumed,
every assistant message's `tool_calls` array is filtered down to consumed
identifiers. -/
def pruneCalls (msgs : List NormMsg) (allIds usedIds : List Chars) : List NormMsg :=
  if usedIds.length < allIds.length then
    let unmatched := allIds.filter (· ∉ usedIds)
    if unmatched ≠ [] then
      msgs.map (fun m => match m with
        | .openMsg role content (some tcs) =>
          if role = str "assistant" ∧ tcs ≠ [] then
            .openMsg role content (some (tcs.filter (fun tc => tc.id ∉ unmatched)))
          else m
        | m => m)
    else msgs
  else msgs

/-- The second pruning pass: a `tool` message whose identifier is empty or
was never declared is removed (the code splices backwards, which removes
every such message — a filter). -/
def pruneOrphanResults (msgs : List NormMsg) (allIds : List Chars) : List NormMsg :=
  msgs.filter (fun m => match m with
    | .toolMsg tid _ => tid ≠ [] ∧ tid ∈ allIds
    | _ => true)

def runScanState (uniq : Nat → Chars) (cs : List ContentT) : ScanState :=
  cs.foldl (scanContent uniq) initScan

/-- `toOpenAIMessages`, with the identifier-generation randomness abstracted
as the oracle `uniq`. -/
def toOpenAIMessagesW (uniq : Nat → Chars) : GenContents → List NormMsg
  | .ofString s => [.openMsg (str "user") s none]
  | .ofParts ps =>
    let text := List.intercalate (str "\n") (ps.filterMap (·.text))
    if text ≠ [] then [.openMsg (str "system") text none] else []
  | .ofContents cs =>
    let st := runScanState uniq cs
    pruneOrphanResults (pruneCalls st.out st.allIds st.usedIds) st.allIds
  | .ofContent c =>
    let st := runScanState uniq [c]
    pruneOrphanResults (pruneCalls st.out st.allIds st.usedIds) st.allIds

/-- Identifiers declared (assigned to some tool-call fragment) during the
pass over the given input. -/
def declaredToolCallIds (uniq : Nat → Chars) : GenContents → List Chars
  | .ofString _ => []
  | .ofParts _ => []
  | .ofContents cs => (runScanState uniq cs).allIds
  | .ofContent c => (runScanState uniq [c]).allIds

/-! ## Tool accounting (`tools.ts`, `getToolCounts`) -/

structure ToolCounts where
  calls : Nat
  results : Nat
  missingResults : Nat
  orphanResults : Nat
  missingIds : List Chars
  orphanIds : List Chars
deriving DecidableEq

def countStep (acc : Nat × Nat × List Chars × List Chars) (m : NormMsg) :
    Nat × Nat × List Chars × List Chars :=
  match m with
  | .openMsg role _ (some tcs) =>
    if role = str "assistant" then
      (acc.1 + tcs.length, acc.2.1,
        tcs.foldl (fun s tc => if tc.id ≠ [] then addSet s tc.id else s) acc.2.2.1,
        acc.2.2.2)
    else acc
  | .openMsg _ _ none => acc
  | .toolMsg tid _ =>
    (acc.1, acc.2.1 + 1, acc.2.2.1,
      if tid ≠ [] then addSet acc.2.2.2 tid else acc.2.2.2)

/-- `getToolCounts`: tool-call entries and `tool` messages of a normalized
sequence, plus the unmatched identifiers on both sides. -/
def getToolCounts (msgs : List NormMsg) : ToolCounts :=
  let acc := msgs.foldl countStep (0, 0, [], [])
  let callIds := acc.2.2.1
  let resultIds := acc.2.2.2
  let missingIds := callIds.filter (· ∉ resultIds)
  let orphanIds := resultIds.filter (· ∉ callIds)
  { calls := acc.1, results := acc.2.1,
    missingResults := missingIds.length, orphanResults := orphanIds.length,
    missingIds := missingIds, orphanIds := orphanIds }

/-! ## Normalized responses and the chat-protocol streaming accumulator
(`openAIChatProvider.ts`, `_generateContentStream`) -/

/-- The finish reasons this layer produces. -/
inductive FinishReason where
  | STOP : FinishReason
  | MAX_TOKENS : FinishReason
  | OTHER : FinishReason
deriving DecidableEq

/-- A part of a normalized response candidate: text or a function call. -/
inductive RPart where
  | textP (text : Chars) : RPart
  | funcP (name : Chars) (args : JsonVal) (id : Option Chars) : RPart
deriving DecidableEq

structure CandContent where
  role : Chars
  parts : List RPart
deriving DecidableEq

structure Candidate where
  content : CandContent
  index : Nat
  finishReason : Option FinishReason := none
deriving DecidableEq

structure UsageT where
  promptTokenCount : Int
  candidatesTokenCount : Int
  totalTokenCount : Int
deriving DecidableEq

/-- `OpenAIGenerateContentResponse`. -/
structure GenResponse where
  candidates : List Candidate
  usageMetadata : Option UsageT := none
  responseId : Option Chars := none
deriving DecidableEq

/-- A response holding one candidate with the given parts and finish reason. -/
def mkResp (parts : List RPart) (fin : Option FinishReason) : GenResponse :=
  { candidates := [{
      content := { role := str "model", parts := parts },
      index := 0,
      finishReason := fin }] }

/-- One tool-call delta of a streamed chat chunk. -/
structure ToolCallDelta where
  index : Option Nat := none
  id : Option Chars := none
  name : Option Chars := none
  arguments : Option Chars := none
deriving DecidableEq

structure ChoiceDelta where
  content : Option Chars := none
  tool_calls : Option (List ToolCallDelta) := none
deriving DecidableEq

structure StreamChoice where
  delta : Option ChoiceDelta := none
  finish_reason : Option Chars := none
deriving DecidableEq

/-- One parsed SSE event of a streamed chat call. -/
structure StreamChunk where
  choices : List StreamChoice := []
deriving DecidableEq

/-- An entry of the streaming tool-call buffer. -/
structure BufEntry where
  id : Option Chars := none
  name : Option Chars := none
  arguments : Chars := []
deriving DecidableEq

abbrev ToolBuffer := List (Nat × BufEntry)

def bufGet (b : ToolBuffer) (i : Nat) : Option BufEntry :=
  (b.find? (fun p => p.1 = i)).map (·.2)

/-- `Map.set`: replace in place, else append (JS `Map` keeps insertion order). -/
def bufSet (b : ToolBuffer) (i : Nat) (e : BufEntry) : ToolBuffer :=
  match b with
  | [] => [(i, e)]
  | (j, e1) :: t => if j = i then (i, e) :: t else (j, e1) :: bufSet t i e

def bufDel (b : ToolBuffer) (i : Nat) : ToolBuffer :=
  b.filter (fun p => p.1 ≠ i)

/-- The chat finish-reason mapping of the streaming loop. -/
def mapFinishReason (f : Chars) : FinishReason :=
  if f = str "stop" then .STOP
  else if f = str "length" then .MAX_TOKENS
  else if f = str "tool_calls" ∨ f = str "function_call" then .STOP
  else .OTHER

/-- The completion test for a buffered entry: the accumulated text trim-ends
with `}` and parses as JSON. -/
def flushCond (args : Chars) : Bool :=
  trimEndsWithRBrace args && (jsonParse args).isSome

/-- Processing of one tool-call delta: merge into the buffer entry for its
positional index, then flush the entry when its accumulated argument text
ends with `}` and parses. -/
def procToolDelta (buffer : ToolBuffer) (tc : ToolCallDelta) :
    ToolBuffer × List GenResponse :=
  let idx := tc.index.getD 0
  let b0 := (bufGet buffer idx).getD {}
  let b1 := if strTruthy tc.id then { b0 with id := tc.id } else b0
  let b2 := if strTruthy tc.name then { b1 with name := tc.name } else b1
  let b3 := if strTruthy tc.arguments then
    { b2 with arguments := b2.arguments ++ tc.arguments.getD [] } else b2
  let buffer1 := bufSet buffer idx b3
  if trimEndsWithRBrace b3.arguments then
    match jsonParse b3.arguments with
    | some args =>
      let name := if strTruthy b3.name then b3.name.getD [] else str "tool"
      (bufDel buffer1 idx, [mkResp [.funcP name args b3.id] none])
    | none => (buffer1, [])
  else (buffer1, [])

def procToolDeltas (buffer : ToolBuffer) :
    List ToolCallDelta → ToolBuffer × List GenResponse
  | [] => (buffer, [])
  | tc :: rest =>
    let (b1, e1) := procToolDelta buffer tc
    let (b2, e2) := procToolDeltas b1 rest
    (b2, e1 ++ e2)

/-- The force flush performed on a finish signal: an entry whose text is
empty yields an empty-object argument; one that parses yields its parse; one
whose non-empty text fails to parse is skipped (and stays in the buffer). -/
def forceFlush : ToolBuffer → List RPart × ToolBuffer
  | [] => ([], [])
  | (i, b) :: rest =>
    match (if b.arguments ≠ [] then jsonParse b.arguments else some (.jobj [])) with
    | some args =>
      let name := if strTruthy b.name then b.name.getD [] else str "tool"
      let (ps, keep) := forceFlush rest
      (.funcP name args b.id :: ps, keep)
    | none =>
      let (ps, keep) := forceFlush rest
      (ps, (i, b) :: keep)

structure ChatStreamState where
  sawFinish : Bool
  buffer : ToolBuffer
deriving DecidableEq

/-- Processing of one parsed SSE event of the chat streaming loop. -/
def chatStep (st : ChatStreamState) (ch : StreamChunk) :
    ChatStreamState × List GenResponse :=
  let delta := ch.choices.head?.bind (·.delta)
  let finish : Option Chars :=
    match ch.choices.head?.bind (·.finish_reason) with
    | some f => if f = [] then none else some f
    | none => none
  let textOut : List GenResponse :=
    match delta with
    | some d => if strTruthy d.content then [mkResp [.textP (d.content.getD [])] none] else []
    | none => []
  let (buffer1, toolOut) :=
    match delta with
    | some d =>
      match d.tool_calls with
      | some tcs => procToolDeltas st.buffer tcs
      | none => (st.buffer, [])
    | none => (st.buffer, [])
  match finish with
  | some f =>
    let (parts, buffer2) := forceFlush buffer1
    (⟨true, buffer2⟩,
      textOut ++ toolOut ++ [mkResp parts (some (mapFinishReason f))])
  | none => (⟨st.sawFinish, buffer1⟩, textOut ++ toolOut)

def chatFold (st : ChatStreamState) : List StreamChunk → ChatStreamState × List GenResponse
  | [] => (st, [])
  | ch :: rest =>
    let (st1, e1) := chatStep st ch
    let (st2, e2) := chatFold st1 rest
    (st2, e1 ++ e2)

/-- The full streamed chat call over an already-parsed event sequence: the
loop body, plus the synthesized terminal fragment when the stream ends
without a finish signal. -/
def chatStreamRun (chunks : List StreamChunk) : List GenResponse :=
  let (st, out) := chatFold ⟨false, []⟩ chunks
  if st.sawFinish then out else out ++ [mkResp [] (some .STOP)]

/-- A chunk carrying one tool-call argument delta at a positional index. -/
def toolArgDelta (idx : Nat) (args : Chars) : StreamChunk :=
  ⟨[{ delta := some { tool_calls := some [{ index := some idx, arguments := some args }] } }]⟩

/-- A chunk carrying only a finish signal. -/
def finishChunk (f : Chars) : StreamChunk :=
  ⟨[{ finish_reason := some f }]⟩

/-- A chunk carrying one text delta. -/
def textDelta (t : Chars) : StreamChunk :=
  ⟨[{ delta := some { content := some t } }]⟩

/-! ## SSE stream parser (`streaming.ts`, `parseSSEStream`) -/

/-- `s.split('\n')` on character lists: always at least one (possibly empty)
line; a trailing newline yields a trailing empty line. -/
def splitLines : Chars → List Chars
  | [] => [[]]
  | c :: rest =>
    if c = '\n' then [] :: splitLines rest
    else match splitLines rest with
      | h :: t => (c :: h) :: t
      | [] => [[c]]

/-- The complete-line loop of the parser: each `data: `-prefixed line is
trimmed and either terminates the stream (the `[DONE]` sentinel), parses to
an event, or is skipped.  Returns the events and whether the sentinel was
seen. -/
def processSSELines : List Chars → List JsonVal × Bool
  | [] => ([], false)
  | l :: ls =>
    if (str "data: ").isPrefixOf l then
      let d := trimWs (l.drop 6)
      if d = str "[DONE]" then ([], true)
      else match jsonParse d with
        | some v =>
          let (es, h) := processSSELines ls
          (v :: es, h)
        | none => processSSELines ls
    else processSSELines ls

structure SSEState where
  buffer : Chars
  halted : Bool
deriving DecidableEq

/-- One chunk of `parseSSEStream`: the retained partial line is prepended,
the last (possibly incomplete) line is retained, complete lines are
processed; after the sentinel the generator has returned, so a halted state
ignores the chunk. -/
def sseStep (st : SSEState) (chunk : Chars) : SSEState × List JsonVal :=
  if st.halted then (st, []) else
  let lines := splitLines (st.buffer ++ chunk)
  let ph := processSSELines lines.dropLast
  (⟨(lines.getLast?).getD [], ph.2⟩, ph.1)

def sseFold (st : SSEState) : List Chars → SSEState × List JsonVal
  | [] => (st, [])
  | c :: cs =>
    let s1 := sseStep st c
    let s2 := sseFold s1.1 cs
    (s2.1, s1.2 ++ s2.2)

/-- `parseSSEStream` over a chunked byte stream: the yielded event objects. -/
def parseSSEStream (chunks : List Chars) : List JsonVal :=
  (sseFold ⟨[], false⟩ chunks).2

/-- Whether the sentinel has terminated the stream after the given chunks. -/
def sseHaltedAfter (chunks : List Chars) : Bool :=
  (sseFold ⟨[], false⟩ chunks).1.halted

/-! ## Response adapters (`responseAdapters.ts`) -/

structure WireToolCallFn where
  name : Option Chars := none
  arguments : Option Chars := none
deriving DecidableEq

structure WireToolCall where
  id : Option Chars := none
  function : Option WireToolCallFn := none
deriving DecidableEq

structure WireMessage where
  content : Option Chars := none
  tool_calls : Option (List WireToolCall) := none
deriving DecidableEq

structure WireChoice where
  message : Option WireMessage := none
  finish_reason : Option Chars := none
deriving DecidableEq

structure WireUsage where
  prompt_tokens : Option Int := none
  completion_tokens : Option Int := none
  total_tokens : Option Int := none
deriving DecidableEq

/-- The wire shape of a non-streaming chat-protocol response. -/
structure OpenAIResponseLike where
  choices : Option (List WireChoice) := none
  usage : Option WireUsage := none
deriving DecidableEq

/-- The chat-protocol response adapter. -/
def convertFromOpenAIResponse (res : OpenAIResponseLike) : GenResponse :=
  let choice := (res.choices.getD []).head?
  let content := ((choice.bind (·.message)).bind (·.content)).getD []
  let textParts : List RPart := if content ≠ [] then [.textP content] else []
  let toolCalls := ((choice.bind (·.message)).bind (·.tool_calls)).getD []
  let tcParts := toolCalls.map (fun tc =>
    let name := match tc.function.bind (·.name) with
      | some n => if n = [] then str "tool" else n
      | none => str "tool"
    let argStr := (tc.function.bind (·.arguments)).getD []
    let args := if argStr ≠ [] then (jsonParse argStr).getD (.jobj []) else .jobj []
    RPart.funcP name args tc.id)
  let fin : Option FinishReason :=
    match choice.bind (·.finish_reason) with
    | some fr =>
      if fr = [] then none
      else if fr = str "stop" then some .STOP
      else if fr = str "length" then some .MAX_TOKENS
      else if fr = str "tool_calls" ∨ fr = str "function_call" then some .STOP
      else some .OTHER
    | none => none
  let usage := res.usage.map (fun u =>
    (⟨u.prompt_tokens.getD 0, u.completion_tokens.getD 0, u.total_tokens.getD 0⟩ : UsageT))
  { candidates := [{
      content := { role := str "model", parts := textParts ++ tcParts },
      index := 0,
      finishReason := fin }],
    usageMetadata := usage }

/-- A raw `arguments` field of a Responses-protocol tool-call item: either a
JSON string or an already-structured value. -/
inductive ArgsVal where
  | argStr (s : Chars) : ArgsVal
  | argObj (v : JsonVal) : ArgsVal
deriving DecidableEq

structure RespSubItem where
  type : Option Chars := none
  text : Option Chars := none
  name : Option Chars := none
  call_id : Option Chars := none
  id : Option Chars := none
  arguments : Option ArgsVal := none
deriving DecidableEq

structure RespItem where
  type : Option Chars := none
  text : Option Chars := none
  content : Option (List RespSubItem) := none
  name : Option Chars := none
  call_id : Option Chars := none
  id : Option Chars := none
  arguments : Option ArgsVal := none
deriving DecidableEq

/-- A usage count on the wire: a number or a numeric string. -/
inductive RawNum where
  | rnum (n : Int) : RawNum
  | rstr (s : Chars) : RawNum
deriving DecidableEq

structure RespUsageRaw where
  input_token_count : Option RawNum := none
  input_tokens : Option RawNum := none
  output_token_count : Option RawNum := none
  output_tokens : Option RawNum := none
  total_token_count : Option RawNum := none
  total_tokens : Option RawNum := none
deriving DecidableEq

/-- The wire shape of a Responses-protocol response. -/
structure ResponsesData where
  output : Option (List RespItem) := none
  usage : Option RespUsageRaw := none
  response_id : Option Chars := none
deriving DecidableEq

/-- Integer value of an integer JSON number lexeme (`0` otherwise;
non-integer token counts are outside the claims' scope). -/
def intOfLexeme (lex : Chars) : Int :=
  match lex with
  | '-' :: ds =>
    if ds ≠ [] ∧ ds.all Char.isDigit then
      -(ds.foldl (fun a c => a * 10 + (c.toNat - '0'.toNat)) 0 : Nat)
    else 0
  | ds =>
    if ds ≠ [] ∧ ds.all Char.isDigit then
      ((ds.foldl (fun a c => a * 10 + (c.toNat - '0'.toNat)) 0 : Nat) : Int)
    else 0

/-- `coerceNumber`: a finite number is kept, a numeric string is parsed,
anything else is zero. -/
def coerceNumber : RawNum → Int
  | .rnum n => n
  | .rstr s =>
    if trimWs s = [] then 0
    else match parseNumber (trimWs s) with
      | some (lex, []) => intOfLexeme lex
      | _ => 0

/-- `parseResponsesFunctionCall` on the fields of a tool-call item. -/
def parseRespFC (nm cid iid : Option Chars) (rawArgs : Option ArgsVal) : RPart :=
  let name := nm.getD (str "tool")
  let idv := cid.getD (iid.getD [])
  let args : JsonVal := match rawArgs with
    | some (.argStr s) => (jsonParse s).getD (.jobj [])
    | some (.argObj v) => if v = .jnull then .jobj [] else v
    | none => .jobj []
  .funcP name args (some idv)

/-- The parts contributed by one Responses-protocol output item. -/
def respItemParts (item : RespItem) : List RPart :=
  let ty := item.type.getD []
  if ty = str "output_text" then
    let text := item.text.getD []
    if text ≠ [] then [.textP text] else []
  else if ty = str "message" then
    (item.content.getD []).flatMap (fun c =>
      let cty := c.type.getD []
      if cty = str "output_text" then
        let text := c.text.getD []
        if text ≠ [] then [.textP text] else []
      else if cty = str "tool_call" ∨ cty = str "function_call" then
        [parseRespFC c.name c.call_id c.id c.arguments]
      else [])
  else if ty = str "tool_call" ∨ ty = str "function_call" then
    [parseRespFC item.name item.call_id item.id item.arguments]
  else []

/-- The Responses-protocol response adapter. -/
def convertFromResponsesApi (d : ResponsesData) : GenResponse :=
  let parts := (d.output.getD []).flatMap respItemParts
  let usage := d.usage.map (fun u =>
    let prompt := coerceNumber ((u.input_token_count.orElse (fun _ => u.input_tokens)).getD (.rnum 0))
    let cand := coerceNumber ((u.output_token_count.orElse (fun _ => u.output_tokens)).getD (.rnum 0))
    let total := match u.total_token_count.orElse (fun _ => u.total_tokens) with
      | some t => coerceNumber t
      | none => prompt + cand
    (⟨prompt, cand, total⟩ : UsageT))
  { candidates := [{
      content := { role := str "model", parts := parts },
      index := 0,
      finishReason := some .STOP }],
    usageMetadata := usage,
    responseId := d.response_id }

/-! ## Provider router (`openAIChatProvider.ts`, `generate` and
`hasResponsesToolCalls`) -/

/-- The structural scan for a tool-call item anywhere in a Responses-protocol
output: a top-level `tool_call`/`function_call` item, or one nested in a
`message` item's content array. -/
def hasResponsesToolCalls (d : ResponsesData) : Bool :=
  (d.output.getD []).any (fun item =>
    let ty := item.type.getD []
    (ty = str "tool_call" ∨ ty = str "function_call") ||
      (ty = str "message" ∧ (item.content.getD []).any (fun c =>
        let cty := c.type.getD []
        cty = str "tool_call" ∨ cty = str "function_call")))

inductive WireProto where
  | responses : WireProto
  | chat : WireProto
deriving DecidableEq

/-- The non-streaming `generate` control flow, abstracted over the transport:
the wire requests issued (in order) and the returned normalized response.
`respData` is what the Responses endpoint would answer, `chatData` what the
chat endpoint would answer. -/
def generateRoute (useResponses : Bool) (respData : ResponsesData)
    (chatData : OpenAIResponseLike) : List WireProto × GenResponse :=
  if useResponses then
    if hasResponsesToolCalls respData then
      ([.responses], convertFromResponsesApi respData)
    else
      ([.responses, .chat], convertFromOpenAIResponse chatData)
  else ([.chat], convertFromOpenAIResponse chatData)

/-! ## Retry policy -/

/-- Modelled from the spec: the retry layer itself (`4.6 Retry Policy`) is
not part of the sources under review — only its callers are — so the error
classification and bounded retry loop below follow the spec's words: an
error is timeout-classified when it is a connection timeout or its message
contains `timeout` case-insensitively; otherwise a general transient
classifier accepts network resets and 5xx statuses; retries stop at a
maximum attempt count and non-retryable errors propagate immediately. -/
structure ReqError where
  connTimeout : Bool
  message : Chars
  status : Option Nat
  networkReset : Bool
deriving DecidableEq

def toLowerStr (s : Chars) : Chars := s.map Char.toLower

/-- Substring search (`message.includes(needle)`). -/
def containsSub (needle : Chars) : Chars → Bool
  | [] => needle.isPrefixOf []
  | c :: rest => needle.isPrefixOf (c :: rest) || containsSub needle rest

/-- Modelled from the spec: a timeout-classified error. -/
def isTimeoutError (e : ReqError) : Bool :=
  e.connTimeout || containsSub (str "timeout") (toLowerStr e.message)

/-- Modelled from the spec: the general transient-error classifier
(network resets, 5xx). -/
def isTransientError (e : ReqError) : Bool :=
  e.networkReset || (match e.status with
    | some s => 500 ≤ s ∧ s < 600
    | none => false)

def isRetryableError (e : ReqError) : Bool :=
  isTimeoutError e || isTransientError e

/-- Modelled from the spec: the bounded retry loop; `remaining` counts the
retries still allowed, `i` the zero-based attempt index.  Returns the number
of attempts made and the final outcome. -/
def retryGo {α : Type} (f : Nat → Except ReqError α) :
    Nat → Nat → Nat × Except ReqError α
  | 0, i =>
    match f i with
    | .ok a => (i + 1, .ok a)
    | .error e => (i + 1, .error e)
  | r + 1, i =>
    match f i with
    | .ok a => (i + 1, .ok a)
    | .error e =>
      if isRetryableError e then retryGo f r (i + 1) else (i + 1, .error e)

/-- Modelled from the spec: a request wrapped in bounded retries with at most
`maxAttempts` attempts. -/
def retryRun {α : Type} (maxAttempts : Nat) (f : Nat → Except ReqError α) :
    Nat × Except ReqError α :=
  retryGo f (maxAttempts - 1) 0

def exC1cs : List ContentT :=
  [⟨some (str "user"), some [{ functionCall := some ⟨some (str "t"), some (str "a"), none⟩ }]⟩,
   ⟨some (str "user"), some [{ functionResponse := some ⟨none, some (str "a"), some (.jstr (str "ok"))⟩ }]⟩]

def exC6cs : List ContentT :=
  [⟨some (str "user"), some [{ functionResponse := some ⟨some (str "u"), some (str "x"), some (.jstr (str "ok"))⟩ }]⟩,
   ⟨some (str "model"), some [{ functionCall := some ⟨some (str "t"), some (str "x"), none⟩ }]⟩]

def exC10cs : List ContentT :=
  [⟨some (str "model"), some [{ functionCall := some ⟨some (str "t"), none, none⟩ }]⟩,
   ⟨some (str "user"), some [{ functionResponse := some ⟨some (str "t"), none, some (.jstr (str "ok"))⟩ }]⟩]

def exRespMsgItem : RespItem :=
  { type := some (str "message"), content := some [{ type := some (str "function_call") }] }

/-! ## Concrete inputs and helper observations used by the claim theorems -/

/-- First candidate's finish reason of a normalized response. -/
def candFinish (r : GenResponse) : Option FinishReason :=
  r.candidates.head?.bind (·.finishReason)

/-- The raw finish reason of the first choice of a chat-protocol response. -/
def wireFinish (res : OpenAIResponseLike) : Option Chars :=
  (res.choices.getD []).head?.bind (·.finish_reason)

/-- The finish-reason table as the specification states it: `stop` to STOP,
`length` to MAX_TOKENS, `tool_calls` and `function_call` to STOP, any other
non-empty value to OTHER, an absent (or empty, hence falsy) value to unset. -/
def specFinishMap : Option Chars → Option FinishReason
  | none => none
  | some fr =>
    if fr = [] then none
    else if fr = str "stop" then some .STOP
    else if fr = str "length" then some .MAX_TOKENS
    else if fr = str "tool_calls" ∨ fr = str "function_call" then some .STOP
    else some .OTHER

/-- The effective finish signal of a chunk (`finish_reason || null`). -/
def finishSignal (ch : StreamChunk) : Option Chars :=
  match ch.choices.head?.bind (·.finish_reason) with
  | some f => if f = [] then none else some f
  | none => none

def prependFirst (p : Chars) : List Chars → List Chars
  | [] => [p]
  | l :: t => (p ++ l) :: t

def isDoneLine (l : Chars) : Bool :=
  (str "data: ").isPrefixOf l && (trimWs (l.drop 6) = str "[DONE]")

def entryB (a : Chars) : ToolBuffer := [(0, { id := none, name := none, arguments := a })]

/-- Whether a part's tool invocation (if any) carries a nonempty explicit
identifier. -/
def partHasExplicitId (p : PartT) : Bool :=
  match p.functionCall with
  | some fc => strTruthy fc.id
  | none => true

def contentCallsHaveIds (c : ContentT) : Bool :=
  (c.parts.getD []).all partHasExplicitId

/-- Whether every tool invocation of the input carries a nonempty explicit
identifier (so the generated-identifier path is never taken). -/
def gcCallsHaveIds : GenContents → Bool
  | .ofString _ => true
  | .ofParts ps => ps.all partHasExplicitId
  | .ofContents cs => cs.all contentCallsHaveIds
  | .ofContent c => contentCallsHaveIds c

/-- C9: the chat-protocol response adapter maps the wire finish_reason exactly
per the table (`stop` to STOP, `length` to MAX_TOKENS, `tool_calls` and
`function_call` to STOP, any other non-empty value to OTHER, an absent or
empty value to unset), and the Responses-protocol adapter always sets the
normalized finish reason to STOP. -/
theorem c9_finish_reason_mapping :
    (∀ res : OpenAIResponseLike,
      candFinish (convertFromOpenAIResponse res) = specFinishMap (wireFinish res)) ∧
    (∀ d : ResponsesData, candFinish (convertFromResponsesApi d) = some .STOP) := by
  constructor
  · intro res
    simp only [candFinish, convertFromOpenAIResponse, wireFinish, specFinishMap]
    cases h : ((res.choices.getD []).head?).bind (·.finish_reason) with
    | none => simp [h]
    | some fr => simp [h]
  · intro d
    simp [candFinish, convertFromResponsesApi]

/-- C4: over the Responses protocol, a non-streaming generate whose response
output contains no tool-call item anywhere triggers exactly one additional
chat-protocol request whose adapted result is returned instead of the
original; when a tool-call item is present, no additional request is issued
and the adapted Responses result is returned.  (The code does not consult
whether tools were supplied or forced, so this holds a fortiori under the
claim's "tools supplied and forced" restriction.) -/
theorem c4_responses_fallback :
    ∀ (respData : ResponsesData) (chatData : OpenAIResponseLike),
      (hasResponsesToolCalls respData = false →
        generateRoute true respData chatData =
          ([.responses, .chat], convertFromOpenAIResponse chatData)) ∧
      (hasResponsesToolCalls respData = true →
        generateRoute true respData chatData =
          ([.responses], convertFromResponsesApi respData)) := by
  intro respData chatData
  constructor
  · intro h
    simp [generateRoute, h]
  · intro h
    simp [generateRoute, h]

/-- C4 witness: a Responses result with plain text only falls back to one
chat request; one with a function_call item does not. -/
theorem c4_responses_fallback_witness :
    hasResponsesToolCalls { output := some [] } = false ∧
      generateRoute true { output := some [] } {} =
        ([.responses, .chat], convertFromOpenAIResponse {}) ∧
      hasResponsesToolCalls { output := some [exRespMsgItem] } = true ∧
      generateRoute true { output := some [exRespMsgItem] } {} =
        ([.responses], convertFromResponsesApi { output := some [exRespMsgItem] }) :=
  ⟨by decide, (c4_responses_fallback { output := some [] } {}).1 (by decide),
    by decide, (c4_responses_fallback { output := some [exRespMsgItem] } {}).2 (by decide)⟩

theorem retryGo_fst_ge {α : Type} (f : Nat → Except ReqError α) :
    ∀ r i, i + 1 ≤ (retryGo f r i).1 := by
  intro r
  induction r with
  | zero =>
    intro i
    simp only [retryGo]
    cases f i with
    | ok a => simp
    | error e => simp
  | succ r ih =>
    intro i
    simp only [retryGo]
    cases f i with
    | ok a => simp
    | error e =>
      by_cases h : isRetryableError e = true
      · simp only [h, if_true]
        have := ih (i + 1)
        omega
      · simp only [eq_false_of_ne_true h]
        simp

theorem retryGo_fst_le {α : Type} (f : Nat → Except ReqError α) :
    ∀ r i, (retryGo f r i).1 ≤ i + r + 1 := by
  intro r
  induction r with
  | zero =>
    intro i
    simp only [retryGo]
    cases f i with
    | ok a => simp
    | error e => simp
  | succ r ih =>
    intro i
    simp only [retryGo]
    cases f i with
    | ok a => simp
    | error e =>
      by_cases h : isRetryableError e = true
      · simp only [h, if_true]
        have := ih (i + 1)
        omega
      · simp only [eq_false_of_ne_true h]
        simp

/-- C5: a request failing with a timeout-classified error is retried at least
once (and the attempt count stays within the configured maximum), while a
request failing with a non-transient 4xx error (no connection timeout, no
`timeout` in its message, no network reset) is never retried: it surfaces
after exactly one attempt. -/
theorem c5_retry_policy {α : Type} :
    ∀ (maxAttempts : Nat) (f : Nat → Except ReqError α) (e : ReqError) (s : Nat),
      (2 ≤ maxAttempts → f 0 = .error e → isTimeoutError e = true →
        2 ≤ (retryRun maxAttempts f).1) ∧
      (1 ≤ maxAttempts → (retryRun maxAttempts f).1 ≤ maxAttempts) ∧
      (f 0 = .error e → e.status = some s → 400 ≤ s → s < 500 →
        isTimeoutError e = false → e.networkReset = false →
        retryRun maxAttempts f = (1, .error e)) := by
  intro maxAttempts f e s
  refine ⟨?_, ?_, ?_⟩
  · intro hmax hf ht
    obtain ⟨r, hr⟩ : ∃ r, maxAttempts - 1 = r + 1 := ⟨maxAttempts - 2, by omega⟩
    simp only [retryRun, hr, retryGo, hf]
    have hretry : isRetryableError e = true := by
      simp [isRetryableError, ht]
    simp only [hretry, if_true]
    exact retryGo_fst_ge f r 1
  · intro hmax
    have := retryGo_fst_le f (maxAttempts - 1) 0
    simp only [retryRun]
    omega
  · intro hf hs h4 h5 ht hn
    have hnotr : isRetryableError e = false := by
      simp only [isRetryableError, isTransientError, ht, hn, hs]
      simp
      omega
    cases hm : maxAttempts - 1 with
    | zero => simp [retryRun, hm, retryGo, hf]
    | succ r => simp [retryRun, hm, retryGo, hf, hnotr]

/-- C5 witness: with three allowed attempts, a persistent timeout error is
attempted three times (hence retried), and a 404 surfaces after one attempt. -/
theorem c5_retry_policy_witness :
    (2 ≤ 3 ∧ 2 ≤ (retryRun 3 (fun _ =>
      (.error ⟨false, str "Connection TIMEOUT hit", none, false⟩ : Except ReqError Nat))).1) ∧
    retryRun 3 (fun _ =>
        (.error ⟨false, str "Bad Request", some 404, false⟩ : Except ReqError Nat)) =
      (1, .error ⟨false, str "Bad Request", some 404, false⟩) :=
  ⟨⟨by omega,
    (c5_retry_policy 3 (fun _ => .error ⟨false, str "Connection TIMEOUT hit", none, false⟩)
      ⟨false, str "Connection TIMEOUT hit", none, false⟩ 0).1 (by omega) rfl (by decide)⟩,
    (c5_retry_policy 3 (fun _ => .error ⟨false, str "Bad Request", some 404, false⟩)
      ⟨false, str "Bad Request", some 404, false⟩ 404).2.2 rfl rfl (by omega) (by omega)
      (by decide) rfl⟩

theorem candFinish_mkResp (parts : List RPart) (fin : Option FinishReason) :
    candFinish (mkResp parts fin) = fin := by
  simp [candFinish, mkResp]

theorem procToolDelta_finish_none (buffer : ToolBuffer) (tc : ToolCallDelta) :
    ∀ r ∈ (procToolDelta buffer tc).2, candFinish r = none := by
  intro r hr
  simp only [procToolDelta] at hr
  repeat' split at hr
  all_goals simp only [List.mem_singleton, List.not_mem_nil] at hr
  all_goals first
    | exact hr.elim
    | (subst hr; exact candFinish_mkResp _ _)

theorem procToolDeltas_finish_none (tcs : List ToolCallDelta) :
    ∀ (buffer : ToolBuffer), ∀ r ∈ (procToolDeltas buffer tcs).2, candFinish r = none := by
  induction tcs with
  | nil => intro buffer r hr; simp [procToolDeltas] at hr
  | cons tc rest ih =>
    intro buffer r hr
    simp only [procToolDeltas, List.mem_append] at hr
    rcases hr with hr | hr
    · exact procToolDelta_finish_none buffer tc r hr
    · exact ih _ r hr

theorem chatStep_no_finish (st : ChatStreamState) (ch : StreamChunk)
    (h : finishSignal ch = none) :
    (chatStep st ch).1.sawFinish = st.sawFinish ∧
      ∀ r ∈ (chatStep st ch).2, candFinish r = none := by
  simp only [finishSignal] at h
  simp only [chatStep, h]
  constructor
  · trivial
  · intro r hr
    simp only [List.mem_append] at hr
    rcases hr with hr | hr
    · rcases hd : ch.choices.head?.bind (·.delta) with _ | d
      · simp [hd] at hr
      · simp only [hd] at hr
        split at hr
        · simp only [List.mem_singleton] at hr
          subst hr
          exact candFinish_mkResp _ _
        · simp at hr
    · rcases hd : ch.choices.head?.bind (·.delta) with _ | d
      · simp [hd] at hr
      · simp only [hd] at hr
        rcases htc : d.tool_calls with _ | tcs
        · simp [htc] at hr
        · simp only [htc] at hr
          exact procToolDeltas_finish_none tcs st.buffer r hr

theorem chatFold_no_finish :
    ∀ (chunks : List StreamChunk) (st : ChatStreamState),
      (∀ ch ∈ chunks, finishSignal ch = none) →
      (chatFold st chunks).1.sawFinish = st.sawFinish ∧
        ∀ r ∈ (chatFold st chunks).2, candFinish r = none := by
  intro chunks
  induction chunks with
  | nil => intro st _; simp [chatFold]
  | cons ch rest ih =>
    intro st hall
    have h1 := chatStep_no_finish st ch (hall ch (by simp))
    have h2 := ih (chatStep st ch).1 (fun c hc => hall c (by simp [hc]))
    simp only [chatFold]
    constructor
    · rw [h2.1, h1.1]
    · intro r hr
      simp only [List.mem_append] at hr
      rcases hr with hr | hr
      · exact h1.2 r hr
      · exact h2.2 r hr

/-- C8: a streamed chat call whose event stream never carries a finish signal
still yields exactly one terminal fragment: the output is a finish-free body
followed by one synthesized fragment with an empty candidate and the STOP
finish reason. -/
theorem c8_no_finish_synthesizes_stop :
    ∀ chunks : List StreamChunk,
      (∀ ch ∈ chunks, finishSignal ch = none) →
      ∃ body, chatStreamRun chunks = body ++ [mkResp [] (some .STOP)] ∧
        (∀ r ∈ body, candFinish r = none) ∧
        candFinish (mkResp [] (some .STOP)) = some .STOP := by
  intro chunks hall
  have h := chatFold_no_finish chunks ⟨false, []⟩ hall
  refine ⟨(chatFold ⟨false, []⟩ chunks).2, ?_, h.2, candFinish_mkResp _ _⟩
  simp only [chatStreamRun, h.1]
  rfl

/-- C8 witness: a stream of one text delta and one tool-call delta, closed
without a finish signal. -/
theorem c8_no_finish_synthesizes_stop_witness :
    (∀ ch ∈ [textDelta (str "hi"), toolArgDelta 0 (str "\x7bbad")], finishSignal ch = none) ∧
    ∃ body, chatStreamRun [textDelta (str "hi"), toolArgDelta 0 (str "\x7bbad")] =
        body ++ [mkResp [] (some .STOP)] ∧
      (∀ r ∈ body, candFinish r = none) ∧
      candFinish (mkResp [] (some .STOP)) = some .STOP :=
  ⟨by decide, c8_no_finish_synthesizes_stop _ (by decide)⟩

/-- Every `tool` message surviving normalization carries an identifier that
was declared (assigned to some tool-call fragment) during the pass: the
final pruning pass filters on exactly the declared-identifier set. -/
theorem toolMsg_mem_declared :
    ∀ (uniq : Nat → Chars) (gc : GenContents) (tid content : Chars),
      NormMsg.toolMsg tid content ∈ toOpenAIMessagesW uniq gc →
      tid ∈ declaredToolCallIds uniq gc := by
  intro uniq gc tid content h
  cases gc with
  | ofString s => simp [toOpenAIMessagesW] at h
  | ofParts ps =>
    simp only [toOpenAIMessagesW] at h
    split at h <;> simp at h
  | ofContents cs =>
    simp only [toOpenAIMessagesW, pruneOrphanResults, List.mem_filter] at h
    have := h.2
    simp only [decide_eq_true_eq] at this
    exact this.2
  | ofContent c =>
    simp only [toOpenAIMessagesW, pruneOrphanResults, List.mem_filter] at h
    have := h.2
    simp only [decide_eq_true_eq] at this
    exact this.2

/-- C1 counterexample: a conversation whose first (user-role) turn carries a
tool-call fragment -- which registers its identifier but is never emitted,
because only assistant turns emit `tool_calls` -- followed by a matching tool
result.  The normalized sequence keeps the result and no call: zero remaining
tool-call identifiers against one remaining tool-result message, so the
count equality and the exactly-one-match property both fail. -/
theorem c1_reconciliation_counterexample :
    toOpenAIMessagesW (fun _ => str "z") (.ofContents exC1cs) =
      [.toolMsg (str "a") (str "\x7b\"result\":\"ok\"\x7d")] ∧
    (getToolCounts (toOpenAIMessagesW (fun _ => str "z") (.ofContents exC1cs))).calls = 0 ∧
    (getToolCounts (toOpenAIMessagesW (fun _ => str "z") (.ofContents exC1cs))).results = 1 ∧
    (getToolCounts (toOpenAIMessagesW (fun _ => str "z") (.ofContents exC1cs))).calls ≠
      (getToolCounts (toOpenAIMessagesW (fun _ => str "z") (.ofContents exC1cs))).results := by
  refine ⟨by decide, by decide, by decide, by decide⟩

/-- C1 (amended): the two-sided pruning does not equate the remaining call
and result counts for every input; what holds for every input conversation
is that each remaining tool-result message's identifier was declared by some
tool-call fragment during the pass. -/
theorem c1_reconciliation_amended :
    ∀ (uniq : Nat → Chars) (gc : GenContents) (tid content : Chars),
      NormMsg.toolMsg tid content ∈ toOpenAIMessagesW uniq gc →
      tid ∈ declaredToolCallIds uniq gc :=
  toolMsg_mem_declared

/-- C1 witness: on a well-formed call/result pair the surviving result's
identifier is declared. -/
theorem c1_reconciliation_amended_witness :
    NormMsg.toolMsg (str "x") (str "\x7b\"name\":\"u\",\"result\":\"ok\"\x7d") ∈
        toOpenAIMessagesW (fun _ => str "z") (.ofContents exC6cs) ∧
      str "x" ∈ declaredToolCallIds (fun _ => str "z") (.ofContents exC6cs) :=
  ⟨by decide, c1_reconciliation_amended (fun _ => str "z") (.ofContents exC6cs)
    (str "x") (str "\x7b\"name\":\"u\",\"result\":\"ok\"\x7d") (by decide)⟩

/-- C6 counterexample: a tool result whose explicit identifier matches no
call declared so far and whose tool name has no pending queue entry is not
dropped at resolution time: it keeps the identifier and survives the final
pruning because a later turn declares that identifier.  The claim's
"otherwise the result is dropped" fails here. -/
theorem c6_orphan_resolution_counterexample :
    toOpenAIMessagesW (fun _ => str "z") (.ofContents exC6cs) =
      [.toolMsg (str "x") (str "\x7b\"name\":\"u\",\"result\":\"ok\"\x7d"),
       .openMsg (str "assistant") [] (some [⟨str "x", some (str "t"), str "\x7b\x7d"⟩])] ∧
    NormMsg.toolMsg (str "x") (str "\x7b\"name\":\"u\",\"result\":\"ok\"\x7d") ∈
      toOpenAIMessagesW (fun _ => str "z") (.ofContents exC6cs) := by
  refine ⟨by decide, by decide⟩

/-- C6 (amended): resolution tries the explicit identifier against the
already-declared set, then the oldest pending identifier for the tool name;
when both miss, the explicit identifier is kept provisionally rather than
the result being dropped at once, and a result whose resolved identifier is
never declared anywhere in the conversation is absent from the normalized
sequence. -/
theorem c6_orphan_resolution_amended :
    (∀ (fr : FunctionResponseT) (pending : List (Chars × List Chars)) (allIds : List Chars),
      (¬∃ q qs, strTruthy fr.name = true ∧
          qGet pending (fr.name.getD []) = some (q :: qs)) →
      resolveToolCallId fr pending allIds = (fr.id.getD [], pending)) ∧
    (∀ (uniq : Nat → Chars) (gc : GenContents) (tid content : Chars),
      tid ∉ declaredToolCallIds uniq gc →
      NormMsg.toolMsg tid content ∉ toOpenAIMessagesW uniq gc) := by
  constructor
  · intro fr pending allIds h
    simp only [resolveToolCallId]
    split
    · split
      · rename_i hname
        rcases hq : qGet pending (fr.name.getD []) with _ | q
        · simp [hq]
        · rcases q with _ | ⟨q0, qs⟩
          · simp [hq]
          · exact absurd ⟨q0, qs, hname, hq⟩ h
      · rfl
    · rfl
  · intro uniq gc tid content hnd hmem
    exact hnd (toolMsg_mem_declared uniq gc tid content hmem)

/-- C6 witness: a queue-less resolution keeps the explicit identifier, and an
identifier never declared never survives. -/
theorem c6_orphan_resolution_amended_witness :
    resolveToolCallId ⟨some (str "u"), some (str "x"), none⟩ [] [] =
        (str "x", []) ∧
      NormMsg.toolMsg (str "zz") (str "c") ∉
        toOpenAIMessagesW (fun _ => str "z") (.ofContents exC1cs) :=
  ⟨c6_orphan_resolution_amended.1 ⟨some (str "u"), some (str "x"), none⟩ [] []
      (by rintro ⟨q, qs, _, hq⟩; simp [qGet] at hq),
    c6_orphan_resolution_amended.2 (fun _ => str "z") (.ofContents exC1cs)
      (str "zz") (str "c") (by decide)⟩

theorem extractToolCalls_oracle_free (u1 u2 : Nat → Chars) :
    ∀ (ps : List PartT) (pending : List (Chars × List Chars))
      (allIds : List Chars) (k : Nat),
      ps.all partHasExplicitId = true →
      extractToolCalls u1 ps pending allIds k = extractToolCalls u2 ps pending allIds k := by
  intro ps
  induction ps with
  | nil => intro pending allIds k _; rfl
  | cons p rest ih =>
    intro pending allIds k hall
    simp only [List.all_cons, Bool.and_eq_true] at hall
    rcases hfc : p.functionCall with _ | fc
    · simp only [extractToolCalls, hfc]
      exact ih pending allIds k hall.2
    · have hid : strTruthy fc.id = true := by
        have := hall.1
        simpa [partHasExplicitId, hfc] using this
      simp only [extractToolCalls, hfc, hid, if_true]
      rw [ih _ _ _ hall.2]

theorem scanContent_oracle_free (u1 u2 : Nat → Chars) (st : ScanState) (c : ContentT)
    (h : contentCallsHaveIds c = true) :
    scanContent u1 st c = scanContent u2 st c := by
  simp only [scanContent]
  rw [extractToolCalls_oracle_free u1 u2 (c.parts.getD []) st.pending st.allIds st.counter h]

theorem scanFold_oracle_free (u1 u2 : Nat → Chars) :
    ∀ (cs : List ContentT) (st : ScanState),
      cs.all contentCallsHaveIds = true →
      cs.foldl (scanContent u1) st = cs.foldl (scanContent u2) st := by
  intro cs
  induction cs with
  | nil => intro st _; rfl
  | cons c rest ih =>
    intro st hall
    simp only [List.all_cons, Bool.and_eq_true] at hall
    simp only [List.foldl_cons]
    rw [scanContent_oracle_free u1 u2 st c hall.1]
    exact ih _ hall.2

/-- C10 counterexample: the conversation has a tool-call fragment without an
explicit identifier, so an identifier is generated from the tool name, the
timestamp and randomness (the oracle): two invocations with different
ambient draws return different provider-message sequences. -/
theorem c10_determinism_counterexample :
    toOpenAIMessagesW (fun _ => str "R1") (.ofContents exC10cs) ≠
      toOpenAIMessagesW (fun _ => str "R2") (.ofContents exC10cs) := by
  decide

/-- C10 (amended): normalization is a pure function of the input and the
identifier oracle; when every tool-call fragment carries a nonempty explicit
identifier the oracle is never consulted, and any two invocations agree,
identifiers included.  With a generated identifier in play, the output
depends on the draw. -/
theorem c10_determinism_amended :
    ∀ (gc : GenContents), gcCallsHaveIds gc = true →
      ∀ (u1 u2 : Nat → Chars), toOpenAIMessagesW u1 gc = toOpenAIMessagesW u2 gc := by
  intro gc h u1 u2
  cases gc with
  | ofString s => rfl
  | ofParts ps => rfl
  | ofContents cs =>
    simp only [toOpenAIMessagesW, runScanState]
    rw [scanFold_oracle_free u1 u2 cs initScan h]
  | ofContent c =>
    simp only [toOpenAIMessagesW, runScanState]
    have : ([c] : List ContentT).all contentCallsHaveIds = true := by
      simpa [gcCallsHaveIds] using h
    rw [scanFold_oracle_free u1 u2 [c] initScan this]

/-- C10 witness: with explicit identifiers everywhere, two different oracles
give the same output. -/
theorem c10_determinism_amended_witness :
    gcCallsHaveIds (.ofContents exC6cs) = true ∧
      toOpenAIMessagesW (fun _ => str "R1") (.ofContents exC6cs) =
        toOpenAIMessagesW (fun _ => str "R2") (.ofContents exC6cs) :=
  ⟨by decide, c10_determinism_amended (.ofContents exC6cs) (by decide)
    (fun _ => str "R1") (fun _ => str "R2")⟩

/-- C2 counterexample: a buffered tool-call entry whose accumulated argument
text is the unparseable `\x7bbad` is not force-flushed when the finish signal
arrives: the terminal fragment carries no function call at all (the claim
says it would carry one with an empty arguments object), and the entry is
silently dropped from the output. -/
theorem c2_force_flush_counterexample :
    chatStreamRun [toolArgDelta 0 (str "\x7bbad"), finishChunk (str "stop")] =
      [mkResp [] (some .STOP)] := by
  decide

theorem c2_step_buffers (s : Chars) (hs : s ≠ []) (h : flushCond s = false) :
    chatStep ⟨false, []⟩ (toolArgDelta 0 s) =
      (⟨false, [(0, ⟨none, none, s⟩)]⟩, []) := by
  have hT : strTruthy (some s) = true := by simp [strTruthy, hs]
  have hE : (if s = [] then (⟨none, none, []⟩ : BufEntry) else ⟨none, none, s⟩) =
      (⟨none, none, s⟩ : BufEntry) := by
    rcases eq_or_ne s [] with h' | h'
    · subst h'; rfl
    · simp [h']
  simp only [chatStep, toolArgDelta, hT]
  simp only [flushCond, Bool.and_eq_false_iff] at h
  rcases h with h | h
  · simp [procToolDeltas, procToolDelta, bufGet, bufSet, hT, hE, h, strTruthy]
  · rcases hp : jsonParse s with _ | v
    · simp [procToolDeltas, procToolDelta, bufGet, bufSet, hT, hE, hp, strTruthy]
    · rw [hp] at h; simp at h

theorem c2_step_finish (s : Chars) (hs : s ≠ []) :
    chatStep ⟨false, [(0, ⟨none, none, s⟩)]⟩ (finishChunk (str "stop")) =
      ((⟨true, match jsonParse s with
          | some _ => [] | none => [(0, ⟨none, none, s⟩)]⟩ : ChatStreamState),
        [mkResp (match jsonParse s with
            | some v => [.funcP (str "tool") v none]
            | none => []) (some .STOP)]) := by
  simp only [chatStep, finishChunk, forceFlush]
  rcases hp : jsonParse s with _ | v
  · simp [hp, hs, strTruthy, mapFinishReason, str]
  · simp [hp, hs, strTruthy, mapFinishReason, str]

/-- C2 (amended): when the finish signal arrives, a buffered entry whose
accumulated argument text is empty is flushed with an empty arguments
object and one whose text parses as JSON is flushed with the parsed
arguments, but an entry whose non-empty text fails to parse is silently
dropped from the terminal fragment: it is not emitted with an empty
arguments object. -/
theorem c2_force_flush_amended :
    ∀ s : Chars, flushCond s = false →
      chatStreamRun [toolArgDelta 0 s, finishChunk (str "stop")] =
        [mkResp (if s = [] then [.funcP (str "tool") (.jobj []) none]
          else match jsonParse s with
            | some v => [.funcP (str "tool") v none]
            | none => []) (some .STOP)] := by
  intro s h
  by_cases hs : s = []
  · subst hs; decide
  · simp only [chatStreamRun, chatFold, c2_step_buffers s hs h, c2_step_finish s hs,
      if_neg hs]
    rcases jsonParse s <;> simp

/-- C2 witness: a buffered entry whose text is the non-object JSON `7` is
flushed with its parsed arguments at finish time. -/
theorem c2_force_flush_amended_witness :
    flushCond (str "7") = false ∧
      chatStreamRun [toolArgDelta 0 (str "7"), finishChunk (str "stop")] =
        [mkResp [.funcP (str "tool") (.jnum (str "7")) none] (some .STOP)] := by
  refine ⟨by decide, ?_⟩
  have := c2_force_flush_amended (str "7") (by decide)
  simpa using this

theorem splitLines_ne_nil : ∀ cs : Chars, splitLines cs ≠ [] := by
  intro cs
  induction cs with
  | nil => simp [splitLines]
  | cons c rest ih =>
    simp only [splitLines]
    split
    · simp
    · rcases h : splitLines rest with _ | ⟨l, t⟩
      · exact absurd h ih
      · simp [h]

theorem splitLines_no_newline : ∀ (cs : Chars) (l : Chars),
    l ∈ splitLines cs → '\n' ∉ l := by
  intro cs
  induction cs with
  | nil =>
    intro l hl
    simp only [splitLines, List.mem_singleton] at hl
    subst hl; simp
  | cons c rest ih =>
    intro l hl
    simp only [splitLines] at hl
    split at hl
    · rcases List.mem_cons.mp hl with hl | hl
      · subst hl; simp
      · exact ih l hl
    · rcases h : splitLines rest with _ | ⟨h0, t⟩
      · exact absurd h (splitLines_ne_nil rest)
      · rw [h] at hl
        rcases List.mem_cons.mp hl with hl | hl
        · subst hl
          intro hmem
          rcases List.mem_cons.mp hmem with hmem | hmem
          · rename_i hne _; exact hne hmem.symm
          · exact ih h0 (by rw [h]; exact List.mem_cons_self _ _) hmem
        · exact ih l (by rw [h]; exact List.mem_cons_of_mem _ hl)

theorem splitLines_of_no_newline : ∀ cs : Chars, '\n' ∉ cs → splitLines cs = [cs] := by
  intro cs
  induction cs with
  | nil => intro _; rfl
  | cons c rest ih =>
    intro h
    simp only [List.mem_cons, not_or] at h
    simp only [splitLines]
    rw [if_neg (fun he => h.1 he.symm), ih h.2]

theorem splitLines_append : ∀ a b : Chars,
    splitLines (a ++ b) =
      (splitLines a).dropLast ++
        prependFirst (((splitLines a).getLast?).getD []) (splitLines b) := by
  intro a
  induction a with
  | nil =>
    intro b
    simp only [List.nil_append, splitLines, List.dropLast_nil]
    rcases h : splitLines b with _ | ⟨l, t⟩
    · exact absurd h (splitLines_ne_nil b)
    · simp [prependFirst]
  | cons c rest ih =>
    intro b
    simp only [List.cons_append, splitLines, List.append_eq]
    split
    · rw [ih b]
      rcases h : splitLines rest with _ | ⟨h0, t⟩
      · exact absurd h (splitLines_ne_nil rest)
      · rcases t with _ | ⟨t0, ts⟩
        · simp [prependFirst]
        · simp [List.getLast?_cons_cons]
    · rw [ih b]
      rcases h : splitLines rest with _ | ⟨h0, t⟩
      · exact absurd h (splitLines_ne_nil rest)
      · rcases t with _ | ⟨t0, ts⟩
        · simp only [List.dropLast_single, List.nil_append, List.getLast?_singleton,
            Option.getD_some]
          rcases hb : splitLines b with _ | ⟨b0, bs⟩
          · exact absurd hb (splitLines_ne_nil b)
          · simp [prependFirst]
        · simp only [List.getLast?_cons_cons]
          show ((c :: h0) :: t0 :: ts).dropLast ++ _ = ((c :: h0) :: t0 :: ts).dropLast ++ _
          rfl

theorem processSSELines_halted_append (xs ys : List Chars)
    (h : (processSSELines xs).2 = true) :
    processSSELines (xs ++ ys) = processSSELines xs := by
  induction xs with
  | nil => simp [processSSELines] at h
  | cons l ls ih =>
    simp only [processSSELines, List.cons_append, List.append_eq] at h ⊢
    split at h
    · split at h
      · rename_i h1 h2
        simp [h1, h2]
      · rcases hp : jsonParse (trimWs (l.drop 6)) with _ | v
        · rw [hp] at h
          rename_i h1 h2
          simp only [h1, if_true, if_neg h2, hp]
          exact ih h
        · rw [hp] at h
          simp only at h
          rename_i h1 h2
          simp only [h1, if_true, if_neg h2, hp]
          rw [ih h]
    · rename_i h1
      simp only [if_neg h1]
      exact ih h

theorem processSSELines_open_append (xs ys : List Chars)
    (h : (processSSELines xs).2 = false) :
    processSSELines (xs ++ ys) =
      ((processSSELines xs).1 ++ (processSSELines ys).1, (processSSELines ys).2) := by
  induction xs with
  | nil => simp [processSSELines]
  | cons l ls ih =>
    simp only [processSSELines, List.cons_append, List.append_eq] at h ⊢
    split at h
    · split at h
      · simp at h
      · rcases hp : jsonParse (trimWs (l.drop 6)) with _ | v
        · rw [hp] at h
          rename_i h1 h2
          simp only [h1, if_true, if_neg h2, hp]
          exact ih h
        · rw [hp] at h
          simp only at h
          rename_i h1 h2
          simp only [h1, if_true, if_neg h2, hp]
          rw [ih h]
          simp
    · rename_i h1
      simp only [if_neg h1]
      exact ih h

theorem sseFold_halted : ∀ (chunks : List Chars) (st : SSEState),
    st.halted = true → sseFold st chunks = (st, []) := by
  intro chunks
  induction chunks with
  | nil => intro st _; rfl
  | cons c cs ih =>
    intro st h
    simp only [sseFold, sseStep, h, if_true]
    rw [ih st h]
    simp

theorem sseFold_append : ∀ (xs ys : List (List Char)) (st : SSEState),
    sseFold st (xs ++ ys) =
      ((sseFold (sseFold st xs).1 ys).1,
        (sseFold st xs).2 ++ (sseFold (sseFold st xs).1 ys).2) := by
  intro xs
  induction xs with
  | nil => intro ys st; simp [sseFold]
  | cons c cs ih =>
    intro ys st
    simp only [List.cons_append, sseFold, List.append_eq]
    rw [ih ys (sseStep st c).1]
    simp

theorem sse_invariant : ∀ (chunks : List (List Char)) (buf : Chars), '\n' ∉ buf →
    (sseFold ⟨buf, false⟩ chunks).2 =
        (processSSELines (splitLines (buf ++ chunks.flatten)).dropLast).1 ∧
      (sseFold ⟨buf, false⟩ chunks).1.halted =
        (processSSELines (splitLines (buf ++ chunks.flatten)).dropLast).2 := by
  intro chunks
  induction chunks with
  | nil =>
    intro buf hbuf
    simp only [sseFold, List.flatten_nil, List.append_nil]
    rw [splitLines_of_no_newline buf hbuf]
    simp [processSSELines]
  | cons c cs ih =>
    intro buf hbuf
    have hfl : buf ++ (c :: cs).flatten = (buf ++ c) ++ cs.flatten := by
      simp [List.flatten_cons, List.append_assoc]
    rw [hfl]
    have hlast : '\n' ∉ ((splitLines (buf ++ c)).getLast?.getD []) := by
      rcases hl : (splitLines (buf ++ c)).getLast? with _ | l
      · simp
      · simp only [Option.getD_some]
        exact splitLines_no_newline (buf ++ c) l (List.mem_of_mem_getLast? hl)
    have hsplit := splitLines_append (buf ++ c) cs.flatten
    have hpre : prependFirst ((splitLines (buf ++ c)).getLast?.getD []) (splitLines cs.flatten) =
        splitLines (((splitLines (buf ++ c)).getLast?.getD []) ++ cs.flatten) := by
      rw [splitLines_append (((splitLines (buf ++ c)).getLast?.getD [])) cs.flatten,
        splitLines_of_no_newline _ hlast]
      simp [prependFirst]
    have hPne : prependFirst ((splitLines (buf ++ c)).getLast?.getD []) (splitLines cs.flatten) ≠ [] := by
      rcases splitLines cs.flatten with _ | ⟨l, t⟩ <;> simp [prependFirst]
    rw [show buf ++ c ++ cs.flatten = (buf ++ c) ++ cs.flatten from rfl] at hsplit
    rcases hh : (processSSELines (splitLines (buf ++ c)).dropLast).2 with _ | _
    case false =>
      have ihx := ih ((splitLines (buf ++ c)).getLast?.getD []) hlast
      rw [hsplit, List.dropLast_append_of_ne_nil _ hPne, hpre,
        processSSELines_open_append _ _ hh]
      simp only [sseFold, sseStep]
      simp only [show ((⟨buf, false⟩ : SSEState).halted) = false from rfl, Bool.false_eq_true,
        if_false, hh]
      exact ⟨by rw [ihx.1], by rw [ihx.2]⟩
    case true =>
      rw [hsplit, List.dropLast_append_of_ne_nil _ hPne,
        processSSELines_halted_append _ _ hh]
      simp only [sseFold, sseStep]
      simp only [show ((⟨buf, false⟩ : SSEState).halted) = false from rfl, Bool.false_eq_true,
        if_false, hh]
      rw [sseFold_halted cs ⟨(splitLines (buf ++ c)).getLast?.getD [], true⟩ rfl]
      simp [hh]

theorem processSSELines_done_head (l : Chars) (ls : List Chars)
    (h : isDoneLine l = true) :
    processSSELines (l :: ls) = ([], true) := by
  simp only [isDoneLine, Bool.and_eq_true, decide_eq_true_eq] at h
  simp [processSSELines, h.1, h.2]

/-- C7: the SSE parser's output is a function of the concatenated byte
stream alone (chunk boundaries do not matter); once a complete
`data: [DONE]` line is processed the produced sequence ends immediately (no
event from that line or later lines), and once halted, appending further
chunks yields no further events. -/
theorem c7_sse_done_terminates :
    (∀ chunks : List Chars, parseSSEStream chunks =
      (processSSELines (splitLines chunks.flatten).dropLast).1) ∧
    (∀ (ls1 ls2 : List Chars) (l : Chars), isDoneLine l = true →
      processSSELines (ls1 ++ l :: ls2) = ((processSSELines ls1).1, true)) ∧
    (∀ chunks more : List Chars, sseHaltedAfter chunks = true →
      parseSSEStream (chunks ++ more) = parseSSEStream chunks) := by
  refine ⟨?_, ?_, ?_⟩
  · intro chunks
    have := (sse_invariant chunks [] (by simp)).1
    simpa [parseSSEStream] using this
  · intro ls1 ls2 l h
    rcases hh : (processSSELines ls1).2 with _ | _
    case false =>
      rw [processSSELines_open_append ls1 (l :: ls2) hh, processSSELines_done_head l ls2 h]
      simp
    case true =>
      rw [processSSELines_halted_append ls1 (l :: ls2) hh]
      exact Prod.ext rfl hh
  · intro chunks more h
    simp only [parseSSEStream, sseFold_append]
    rw [sseFold_halted more (sseFold ⟨[], false⟩ chunks).1 (by simpa [sseHaltedAfter] using h)]
    simp

/-- C7 witness: a sentinel split across chunk boundaries, with trailing data
in the same chunk and a later chunk, yields only the event before it. -/
theorem c7_sse_done_terminates_witness :
    parseSSEStream [str "data: 1\nda", str "ta: [DONE]\ndata: 2\n"] =
        (processSSELines (splitLines ([str "data: 1\nda", str "ta: [DONE]\ndata: 2\n"].flatten)).dropLast).1 ∧
      isDoneLine (str "data: [DONE]") = true ∧
      processSSELines [str "data: 1", str "data: [DONE]", str "data: 2"] =
        ((processSSELines [str "data: 1"]).1, true) ∧
      sseHaltedAfter [str "data: 1\nda", str "ta: [DONE]\ndata: 2\n"] = true ∧
      parseSSEStream ([str "data: 1\nda", str "ta: [DONE]\ndata: 2\n"] ++ [str "data: 3\n"]) =
        parseSSEStream [str "data: 1\nda", str "ta: [DONE]\ndata: 2\n"] :=
  ⟨c7_sse_done_terminates.1 _, by decide,
    c7_sse_done_terminates.2.1 [str "data: 1"] [str "data: 2"] (str "data: [DONE]") (by decide),
    by decide,
    c7_sse_done_terminates.2.2 [str "data: 1\nda", str "ta: [DONE]\ndata: 2\n"]
      [str "data: 3\n"] (by decide)⟩

/-! ## Fragmented tool-call argument streaming (C3) -/

theorem dropWhile_append_of_ne_nil {p : Char → Bool} :
    ∀ (a b : Chars), a.dropWhile p ≠ [] →
      (a ++ b).dropWhile p = a.dropWhile p ++ b := by
  intro a
  induction a with
  | nil => intro b h; simp [List.dropWhile] at h
  | cons c t ih =>
    intro b h
    simp only [List.cons_append, List.dropWhile] at h ⊢
    split
    · rename_i hc
      simp only [hc] at h
      exact ih b h
    · rfl

theorem dropWhile_append_all {p : Char → Bool} :
    ∀ (a b : Chars), (∀ x ∈ a, p x = true) →
      (a ++ b).dropWhile p = b.dropWhile p := by
  intro a
  induction a with
  | nil => intro b _; rfl
  | cons c t ih =>
    intro b h
    simp only [List.cons_append, List.dropWhile, h c (by simp)]
    exact ih b (fun x hx => h x (by simp [hx]))

theorem dropWhile_all_eq_nil {p : Char → Bool} :
    ∀ (a : Chars), (∀ x ∈ a, p x = true) → a.dropWhile p = [] := by
  intro a h
  have := dropWhile_append_all a [] h
  simpa using this

theorem skipWs_append_of_ne_nil (a b : Chars) (h : skipWs a ≠ []) :
    skipWs (a ++ b) = skipWs a ++ b :=
  dropWhile_append_of_ne_nil a b h

theorem skipWs_eq_nil (a : Chars) (h : ∀ x ∈ a, isJsonWs x = true) : skipWs a = [] :=
  dropWhile_all_eq_nil a h

theorem all_ws_of_skipWs_eq_nil : ∀ (a : Chars), skipWs a = [] →
    ∀ x ∈ a, isJsonWs x = true := by
  intro a
  induction a with
  | nil => intro _ x hx; simp at hx
  | cons c t ih =>
    intro h x hx
    simp only [skipWs, List.dropWhile] at h
    split at h
    · rename_i hc
      rcases List.mem_cons.mp hx with hx | hx
      · subst hx; exact hc
      · exact ih h x hx
    · simp at h

theorem skipWs_append_of_all_ws (a b : Chars) (h : ∀ x ∈ a, isJsonWs x = true) :
    skipWs (a ++ b) = skipWs b :=
  dropWhile_append_all a b h

theorem digitsSpan_eq (t : Chars) :
    t = (digitsSpan t).1 ++ (digitsSpan t).2 ∧
      (∀ c ∈ (digitsSpan t).1, c.isDigit = true) := by
  constructor
  · simp [digitsSpan, List.takeWhile_append_dropWhile]
  · intro c hc
    exact List.mem_takeWhile_imp hc

theorem takeWhile_append_of_ne_nil {p : Char → Bool} :
    ∀ (a b : Chars), a.dropWhile p ≠ [] →
      (a ++ b).takeWhile p = a.takeWhile p := by
  intro a
  induction a with
  | nil => intro b h; simp [List.dropWhile] at h
  | cons c t ih =>
    intro b h
    simp only [List.cons_append, List.takeWhile, List.dropWhile, List.append_eq] at h ⊢
    split
    · rename_i hc
      simp only [hc] at h
      rw [ih b h]
    · rfl

theorem digitsSpan_extend (t ext : Chars) (h : (digitsSpan t).2 ≠ []) :
    digitsSpan (t ++ ext) =
      ((digitsSpan t).1, (digitsSpan t).2 ++ ext) := by
  simp only [digitsSpan] at h ⊢
  rw [takeWhile_append_of_ne_nil t ext h, dropWhile_append_of_ne_nil t ext h]

theorem parseIntPart_eq : ∀ (cs ip r : Chars),
    parseIntPart cs = some (ip, r) →
    cs = ip ++ r ∧ ip ≠ [] ∧ ∀ c ∈ ip, isNumChar c = true := by
  intro cs ip r h
  rcases cs with _ | ⟨c, t⟩
  · simp [parseIntPart] at h
  · simp only [parseIntPart] at h
    split at h
    · rename_i hc
      simp only [Option.some_inj, Prod.mk.injEq] at h
      rw [← h.1, ← h.2]
      refine ⟨by simp, by simp, ?_⟩
      intro x hx
      simp only [List.mem_singleton] at hx
      subst hx hc
      decide
    · split at h
      · rename_i hd
        simp only [Option.some_inj, Prod.mk.injEq] at h
        have hds := digitsSpan_eq t
        rw [← h.1, ← h.2]
        refine ⟨by rw [List.cons_append, ← hds.1], by simp, ?_⟩
        intro x hx
        rcases List.mem_cons.mp hx with hx | hx
        · subst hx; simp [isNumChar, hd]
        · simp [isNumChar, hds.2 x hx]
      · simp at h

theorem parseIntPart_extend : ∀ (cs ext ip r : Chars),
    parseIntPart cs = some (ip, r) → r ≠ [] →
    parseIntPart (cs ++ ext) = some (ip, r ++ ext) := by
  intro cs ext ip r h hr
  rcases cs with _ | ⟨c, t⟩
  · simp [parseIntPart] at h
  · simp only [parseIntPart, List.cons_append] at h ⊢
    split at h
    · rename_i hc
      simp only [Option.some_inj, Prod.mk.injEq] at h
      simp [hc, ← h.1, ← h.2]
    · rename_i hc
      split at h
      · rename_i hd
        simp only [Option.some_inj, Prod.mk.injEq] at h
        have hext := digitsSpan_extend t ext (by rw [h.2]; exact hr)
        rw [if_neg hc, hext]
        simp [hd, ← h.1, ← h.2]
      · simp at h

theorem parseFracPart_eq : ∀ (cs fp r : Chars),
    parseFracPart cs = some (fp, r) →
    cs = fp ++ r ∧ ∀ c ∈ fp, isNumChar c = true := by
  intro cs fp r h
  rcases cs with _ | ⟨c, t⟩
  · simp only [parseFracPart, Option.some_inj, Prod.mk.injEq] at h
    simp [← h.1, ← h.2]
  · by_cases hc : c = '.'
    · subst hc
      simp only [parseFracPart] at h
      split at h
      · simp at h
      · simp only [Option.some_inj, Prod.mk.injEq] at h
        have hds := digitsSpan_eq t
        refine ⟨by rw [← h.1, ← h.2, List.cons_append, ← hds.1], ?_⟩
        intro x hx
        rw [← h.1] at hx
        rcases List.mem_cons.mp hx with hx | hx
        · subst hx; decide
        · simp [isNumChar, hds.2 x hx]
    · have : parseFracPart (c :: t) = some ([], c :: t) := by
        simp only [parseFracPart]
        split
        · rename_i heq
          exact absurd (List.cons_eq_cons.mp heq).1 hc
        · rfl
      rw [this] at h
      simp only [Option.some_inj, Prod.mk.injEq] at h
      simp [← h.1, ← h.2]

theorem parseFracPart_extend : ∀ (cs ext fp r : Chars),
    parseFracPart cs = some (fp, r) → r ≠ [] →
    parseFracPart (cs ++ ext) = some (fp, r ++ ext) := by
  intro cs ext fp r h hr
  rcases cs with _ | ⟨c, t⟩
  · simp only [parseFracPart, Option.some_inj, Prod.mk.injEq] at h
    exact absurd h.2.symm hr
  · by_cases hc : c = '.'
    · subst hc
      simp only [parseFracPart, List.cons_append] at h ⊢
      split at h
      · simp at h
      · rename_i hds
        simp only [Option.some_inj, Prod.mk.injEq] at h
        have hext := digitsSpan_extend t ext (by rw [h.2]; exact hr)
        rw [hext]
        simp only [hds, if_false]
        simp [← h.1, ← h.2]
    · have hstep : ∀ u : Chars, parseFracPart (c :: u) = some ([], c :: u) := by
        intro u
        simp only [parseFracPart]
        split
        · rename_i heq
          exact absurd (List.cons_eq_cons.mp heq).1 hc
        · rfl
      rw [hstep t] at h
      simp only [Option.some_inj, Prod.mk.injEq] at h
      rw [List.cons_append, hstep (t ++ ext)]
      simp [← h.1, ← h.2]

theorem expSign_eq : ∀ t : Chars,
    t = (expSign t).1 ++ (expSign t).2 ∧ ∀ c ∈ (expSign t).1, isNumChar c = true := by
  intro t
  rcases t with _ | ⟨s, t3⟩
  · simp [expSign]
  · simp only [expSign]
    split
    · rename_i hs
      refine ⟨by simp, ?_⟩
      intro x hx
      simp only [List.mem_singleton] at hx
      subst hx
      rcases Bool.or_eq_true_iff.mp hs with hs | hs
      · rw [decide_eq_true_eq] at hs; subst hs; decide
      · rw [decide_eq_true_eq] at hs; subst hs; decide
    · simp

theorem expSign_extend : ∀ (t ext : Chars), t ≠ [] →
    expSign (t ++ ext) = ((expSign t).1, (expSign t).2 ++ ext) := by
  intro t ext ht
  rcases t with _ | ⟨s, t3⟩
  · exact absurd rfl ht
  · simp only [List.cons_append, expSign]
    split
    · rfl
    · rfl

theorem parseExpPart_eq : ∀ (cs ep r : Chars),
    parseExpPart cs = some (ep, r) →
    cs = ep ++ r ∧ ∀ c ∈ ep, isNumChar c = true := by
  intro cs ep r h
  rcases cs with _ | ⟨c, t⟩
  · simp only [parseExpPart, Option.some_inj, Prod.mk.injEq] at h
    simp [← h.1, ← h.2]
  · simp only [parseExpPart] at h
    split at h
    · rename_i hc
      split at h
      · simp at h
      · simp only [Option.some_inj, Prod.mk.injEq] at h
        have hes := expSign_eq t
        have hds := digitsSpan_eq (expSign t).2
        rw [← h.1, ← h.2]
        constructor
        · simp only [List.cons_append, List.append_assoc]
          rw [← hds.1, ← hes.1]
        · intro x hx
          rcases List.mem_cons.mp hx with hx | hx
          · subst hx
            rcases Bool.or_eq_true_iff.mp hc with hc | hc
            · rw [decide_eq_true_eq] at hc; subst hc; decide
            · rw [decide_eq_true_eq] at hc; subst hc; decide
          · rcases List.mem_append.mp hx with hx | hx
            · exact hes.2 x hx
            · simp [isNumChar, hds.2 x hx]
    · simp only [Option.some_inj, Prod.mk.injEq] at h
      simp [← h.1, ← h.2]

theorem parseExpPart_extend : ∀ (cs ext ep r : Chars),
    parseExpPart cs = some (ep, r) → r ≠ [] →
    parseExpPart (cs ++ ext) = some (ep, r ++ ext) := by
  intro cs ext ep r h hr
  rcases cs with _ | ⟨c, t⟩
  · simp only [parseExpPart, Option.some_inj, Prod.mk.injEq] at h
    exact absurd h.2.symm hr
  · simp only [parseExpPart, List.cons_append] at h ⊢
    split at h
    · rename_i hc
      split at h
      · simp at h
      · rename_i hds
        simp only [Option.some_inj, Prod.mk.injEq] at h
        have ht : t ≠ [] := by
          intro he
          subst he
          simp [expSign, digitsSpan, List.takeWhile] at hds
        have hes := expSign_extend t ext ht
        have hds2 : (digitsSpan (expSign t).2).2 ≠ [] := by rw [h.2]; exact hr
        have hdx := digitsSpan_extend (expSign t).2 ext hds2
        rw [if_pos hc, hes]
        simp only [hdx, hds, if_false]
        simp [← h.1, ← h.2]
    · rename_i hc
      simp only [Option.some_inj, Prod.mk.injEq] at h
      rw [if_neg hc]
      simp [← h.1, ← h.2]

theorem numSign_eq : ∀ cs : Chars,
    cs = (numSign cs).1 ++ (numSign cs).2 ∧ ∀ c ∈ (numSign cs).1, isNumChar c = true := by
  intro cs
  rcases cs with _ | ⟨c, t⟩
  · simp [numSign]
  · simp only [numSign]
    split
    · rename_i hc
      refine ⟨by simp, ?_⟩
      intro x hx
      simp only [List.mem_singleton] at hx
      subst hx hc
      decide
    · simp

theorem numSign_extend : ∀ (cs ext : Chars), cs ≠ [] →
    numSign (cs ++ ext) = ((numSign cs).1, (numSign cs).2 ++ ext) := by
  intro cs ext h
  rcases cs with _ | ⟨c, t⟩
  · exact absurd rfl h
  · simp only [List.cons_append, numSign]
    split <;> rfl

theorem parseExpPart_nil (ep r : Chars) (h : parseExpPart [] = some (ep, r)) :
    ep = [] ∧ r = [] := by
  simp only [parseExpPart, Option.some_inj, Prod.mk.injEq] at h
  exact ⟨h.1.symm, h.2.symm⟩

theorem parseFracPart_nil (fp r : Chars) (h : parseFracPart [] = some (fp, r)) :
    fp = [] ∧ r = [] := by
  simp only [parseFracPart, Option.some_inj, Prod.mk.injEq] at h
  exact ⟨h.1.symm, h.2.symm⟩

theorem parseNumber_eq : ∀ (cs lex r : Chars),
    parseNumber cs = some (lex, r) →
    cs = lex ++ r ∧ lex ≠ [] ∧ ∀ c ∈ lex, isNumChar c = true := by
  intro cs lex r h
  simp only [parseNumber] at h
  rcases hip : parseIntPart (numSign cs).2 with _ | ⟨ip, cs2⟩
  · rw [hip] at h; simp at h
  · rw [hip] at h
    dsimp only at h
    rcases hfp : parseFracPart cs2 with _ | ⟨fp, cs3⟩
    · rw [hfp] at h; simp at h
    · rw [hfp] at h
      dsimp only at h
      rcases hep : parseExpPart cs3 with _ | ⟨ep, cs4⟩
      · rw [hep] at h; simp at h
      · rw [hep] at h
        dsimp only at h
        simp only [Option.some_inj, Prod.mk.injEq] at h
        have hns := numSign_eq cs
        have h1 := parseIntPart_eq _ _ _ hip
        have h2 := parseFracPart_eq _ _ _ hfp
        have h3 := parseExpPart_eq _ _ _ hep
        refine ⟨?_, ?_, ?_⟩
        · rw [← h.1, ← h.2]
          simp only [List.append_assoc]
          rw [← h3.1, ← h2.1, ← h1.1, ← hns.1]
        · rw [← h.1]
          simp [h1.2.1]
        · intro x hx
          rw [← h.1] at hx
          rcases List.mem_append.mp hx with hx | hx
          · rcases List.mem_append.mp hx with hx | hx
            · rcases List.mem_append.mp hx with hx | hx
              · exact hns.2 x hx
              · exact h1.2.2 x hx
            · exact h2.2 x hx
          · exact h3.2 x hx

theorem parseNumber_extend : ∀ (cs ext lex r : Chars),
    parseNumber cs = some (lex, r) → r ≠ [] →
    parseNumber (cs ++ ext) = some (lex, r ++ ext) := by
  intro cs ext lex r h hr
  simp only [parseNumber] at h ⊢
  rcases hip : parseIntPart (numSign cs).2 with _ | ⟨ip, cs2⟩
  · rw [hip] at h; simp at h
  · rw [hip] at h
    dsimp only at h
    rcases hfp : parseFracPart cs2 with _ | ⟨fp, cs3⟩
    · rw [hfp] at h; simp at h
    · rw [hfp] at h
      dsimp only at h
      rcases hep : parseExpPart cs3 with _ | ⟨ep, cs4⟩
      · rw [hep] at h; simp at h
      · rw [hep] at h
        dsimp only at h
        simp only [Option.some_inj, Prod.mk.injEq] at h
        have hr4 : cs4 ≠ [] := by rw [h.2]; exact hr
        have hcs3 : cs3 ≠ [] := by
          intro he; subst he
          exact hr4 (parseExpPart_nil _ _ hep).2
        have hcs2 : cs2 ≠ [] := by
          intro he; subst he
          exact hcs3 (parseFracPart_nil _ _ hfp).2
        have hcs : cs ≠ [] := by
          intro he; subst he
          simp [numSign, parseIntPart] at hip
        rw [numSign_extend cs ext hcs]
        simp only
        rw [parseIntPart_extend _ ext _ _ hip hcs2]
        dsimp only
        rw [parseFracPart_extend _ ext _ _ hfp hcs3]
        dsimp only
        rw [parseExpPart_extend _ ext _ _ hep hr4]
        simp [← h.1, ← h.2]

theorem parseStringRest_extend : ∀ (f : Nat) (g : Nat), f ≤ g →
    ∀ (cs s r ext : Chars), parseStringRest f cs = some (s, r) →
      parseStringRest g (cs ++ ext) = some (s, r ++ ext) := by
  intro f
  induction f with
  | zero => intro g _ cs s r ext h; simp [parseStringRest] at h
  | succ f ih =>
    intro g hg cs s r ext h
    obtain ⟨g2, rfl⟩ : ∃ g2, g = g2 + 1 := ⟨g - 1, by omega⟩
    have hg2 : f ≤ g2 := by omega
    rcases cs with _ | ⟨c, rest⟩
    · simp [parseStringRest] at h
    · simp only [parseStringRest, List.cons_append, List.append_eq] at h ⊢
      by_cases hq : c = '"'
      · simp only [hq, if_true] at h ⊢
        simp only [Option.some_inj, Prod.mk.injEq] at h
        simp [← h.1, ← h.2]
      · simp only [hq, if_false] at h ⊢
        by_cases hb : c = '\\'
        · simp only [hb, if_true] at h ⊢
          rcases rest with _ | ⟨e, rest2⟩
          · simp at h
          · simp only [List.cons_append, List.append_eq] at h ⊢
            by_cases hu : e = 'u'
            · simp only [hu, if_true] at h ⊢
              rcases rest2 with _ | ⟨h1, _ | ⟨h2, _ | ⟨h3, _ | ⟨h4, rest3⟩⟩⟩⟩
              · simp at h
              · simp at h
              · simp at h
              · simp at h
              · simp only [List.cons_append, List.append_eq] at h ⊢
                rcases hx1 : hexVal h1 with _ | a <;> rw [hx1] at h
                · simp at h
                rcases hx2 : hexVal h2 with _ | b <;> rw [hx2] at h
                · simp at h
                rcases hx3 : hexVal h3 with _ | c3 <;> rw [hx3] at h
                · simp at h
                rcases hx4 : hexVal h4 with _ | d <;> rw [hx4] at h
                · simp at h
                dsimp only at h ⊢
                rcases hps : parseStringRest f rest3 with _ | ⟨s1, r1⟩ <;> rw [hps] at h
                · simp at h
                · simp only [Option.map_some', Option.some_inj, Prod.mk.injEq] at h
                  rw [ih g2 hg2 rest3 s1 r1 ext hps]
                  simp [← h.1, ← h.2]
            · simp only [hu, if_false] at h ⊢
              rcases hec : escChar e with _ | d <;> rw [hec] at h
              · simp at h
              · dsimp only at h ⊢
                rcases hps : parseStringRest f rest2 with _ | ⟨s1, r1⟩ <;> rw [hps] at h
                · simp at h
                · simp only [Option.map_some', Option.some_inj, Prod.mk.injEq] at h
                  rw [ih g2 hg2 rest2 s1 r1 ext hps]
                  simp [← h.1, ← h.2]
        · simp only [hb, if_false] at h ⊢
          by_cases hctl : c.toNat < 32
          · simp only [if_pos hctl] at h
            simp at h
          · simp only [if_neg hctl] at h ⊢
            rcases hps : parseStringRest f rest with _ | ⟨s1, r1⟩ <;> rw [hps] at h
            · simp at h
            · simp only [Option.map_some', Option.some_inj, Prod.mk.injEq] at h
              rw [ih g2 hg2 rest s1 r1 ext hps]
              simp [← h.1, ← h.2]

theorem parseValue_extend_all : ∀ (f g : Nat), f ≤ g →
    (∀ cs v r ext, parseValue f cs = some (v, r) →
      (ext = [] ∨ r ≠ [] ∨ v.isNum = false) →
      parseValue g (cs ++ ext) = some (v, r ++ ext)) ∧
    (∀ cs v r ext, parseObjBody f cs = some (v, r) →
      parseObjBody g (cs ++ ext) = some (v, r ++ ext)) ∧
    (∀ cs v r ext, parseMembers f cs = some (v, r) →
      parseMembers g (cs ++ ext) = some (v, r ++ ext)) ∧
    (∀ cs v r ext, parseArrBody f cs = some (v, r) →
      parseArrBody g (cs ++ ext) = some (v, r ++ ext)) ∧
    (∀ cs v r ext, parseElems f cs = some (v, r) →
      parseElems g (cs ++ ext) = some (v, r ++ ext)) := by
  intro f
  induction f with
  | zero =>
    intro g _
    refine ⟨?_, ?_, ?_, ?_, ?_⟩ <;> (intro cs v r ext h; simp [parseValue,
      parseObjBody, parseMembers, parseArrBody, parseElems] at h)
  | succ f ih =>
    intro g hg
    obtain ⟨g2, rfl⟩ : ∃ g2, g = g2 + 1 := ⟨g - 1, by omega⟩
    have hg2 : f ≤ g2 := by omega
    have IH := ih g2 hg2
    refine ⟨?_, ?_, ?_, ?_, ?_⟩
    -- parseValue
    · intro cs v r ext h hS
      simp only [parseValue] at h
      rcases hsw : skipWs cs with _ | ⟨c, rest⟩
      · rw [hsw] at h; simp at h
      · rw [hsw] at h
        try dsimp only at h
        have hsw2 : skipWs (cs ++ ext) = c :: (rest ++ ext) := by
          rw [skipWs_append_of_ne_nil cs ext (by rw [hsw]; simp), hsw]
          rfl
        simp only [parseValue, hsw2]
        by_cases h1 : c = lbrace
        · simp only [h1, if_true] at h ⊢
          exact IH.2.1 rest v r ext h
        · simp only [h1, if_false] at h ⊢
          by_cases h2 : c = '['
          · simp only [h2, if_true] at h ⊢
            exact IH.2.2.2.1 rest v r ext h
          · simp only [h2, if_false] at h ⊢
            by_cases h3 : c = '"'
            · simp only [h3, if_true] at h ⊢
              rcases hps : parseStringRest f rest with _ | ⟨s1, r1⟩ <;> rw [hps] at h
              · simp at h
              · simp only [Option.map_some', Option.some_inj, Prod.mk.injEq] at h
                rw [parseStringRest_extend f g2 hg2 rest s1 r1 ext hps]
                simp [← h.1, ← h.2]
            · simp only [h3, if_false] at h ⊢
              by_cases h4 : c = 't'
              · simp only [h4, if_true] at h ⊢
                split at h
                · simp only [Option.some_inj, Prod.mk.injEq] at h
                  simp only [List.cons_append]
                  simp [← h.1, ← h.2]
                · exact absurd h (by simp)
              · simp only [h4, if_false] at h ⊢
                by_cases h5 : c = 'f'
                · simp only [h5, if_true] at h ⊢
                  split at h
                  · simp only [Option.some_inj, Prod.mk.injEq] at h
                    simp only [List.cons_append]
                    simp [← h.1, ← h.2]
                  · exact absurd h (by simp)
                · simp only [h5, if_false] at h ⊢
                  by_cases h6 : c = 'n'
                  · simp only [h6, if_true] at h ⊢
                    split at h
                    · simp only [Option.some_inj, Prod.mk.injEq] at h
                      simp only [List.cons_append]
                      simp [← h.1, ← h.2]
                    · exact absurd h (by simp)
                  · simp only [h6, if_false] at h ⊢
                    by_cases h7 : c = '-' ∨ c.isDigit = true
                    · rw [if_pos (by simpa using h7)] at h
                      rw [if_pos (by simpa using h7)]
                      rcases hpn : parseNumber (c :: rest) with _ | ⟨lex, r1⟩ <;>
                        rw [hpn] at h
                      · simp at h
                      · simp only [Option.map_some', Option.some_inj,
                          Prod.mk.injEq] at h
                        rcases hS with hS | hS | hS
                        · subst hS
                          simp only [List.append_nil]
                          rw [hpn]
                          simp [h.1, h.2]
                        · have : r1 ≠ [] := by rw [h.2]; exact hS
                          have hx := parseNumber_extend (c :: rest) ext lex r1 hpn this
                          rw [show c :: (rest ++ ext) = (c :: rest) ++ ext from rfl, hx]
                          simp [← h.1, ← h.2]
                        · rw [← h.1] at hS
                          simp [JsonVal.isNum] at hS
                    · rw [if_neg (by simpa using h7)] at h
                      exact Option.noConfusion h
    -- parseObjBody
    · intro cs v r ext h
      simp only [parseObjBody] at h
      rcases hsw : skipWs cs with _ | ⟨c, rest⟩
      · rw [hsw] at h; simp at h
      · rw [hsw] at h
        try dsimp only at h
        have hsw2 : skipWs (cs ++ ext) = c :: (rest ++ ext) := by
          rw [skipWs_append_of_ne_nil cs ext (by rw [hsw]; simp), hsw]
          rfl
        simp only [parseObjBody, hsw2]
        by_cases h1 : c = rbrace
        · simp only [h1, if_true] at h ⊢
          simp only [Option.some_inj, Prod.mk.injEq] at h
          simp [← h.1, ← h.2]
        · simp only [h1, if_false] at h ⊢
          exact IH.2.2.1 (c :: rest) v r ext h
    -- parseMembers
    · intro cs v r ext h
      simp only [parseMembers] at h
      rcases hsw : skipWs cs with _ | ⟨c0, rcs⟩
      · rw [hsw] at h; simp at h
      · rw [hsw] at h
        try dsimp only at h
        have hsw2 : skipWs (cs ++ ext) = c0 :: (rcs ++ ext) := by
          rw [skipWs_append_of_ne_nil cs ext (by rw [hsw]; simp), hsw]
          rfl
        simp only [parseMembers, hsw2]
        try dsimp only
        by_cases hc : c0 = '"'
        · simp only [hc, if_true] at h ⊢
          rcases hps : parseStringRest f rcs with _ | ⟨key, r1⟩ <;> rw [hps] at h
          · simp at h
          · rw [parseStringRest_extend f g2 hg2 rcs key r1 ext hps]
            try dsimp only at h ⊢
            rcases hsw1 : skipWs r1 with _ | ⟨c1, r2⟩
            · rw [hsw1] at h; simp at h
            · rw [hsw1] at h
              try dsimp only at h
              have hswx : skipWs (r1 ++ ext) = c1 :: (r2 ++ ext) := by
                rw [skipWs_append_of_ne_nil r1 ext (by rw [hsw1]; simp), hsw1]
                rfl
              rw [hswx]
              try dsimp only
              by_cases hc1 : c1 = ':'
              · simp only [hc1, if_true] at h ⊢
                rcases hpv : parseValue f r2 with _ | ⟨mvr⟩ <;> rw [hpv] at h
                · simp at h
                · rcases mvr with ⟨mv, r3⟩
                  try dsimp only at h
                  rcases hsw3 : skipWs r3 with _ | ⟨c2, r4⟩
                  · rw [hsw3] at h; simp at h
                  · rw [hsw3] at h
                    try dsimp only at h
                    have hr3 : r3 ≠ [] := by
                      intro he; subst he
                      simp [skipWs, List.dropWhile] at hsw3
                    rw [IH.1 r2 mv r3 ext hpv (Or.inr (Or.inl hr3))]
                    try dsimp only
                    have hswy : skipWs (r3 ++ ext) = c2 :: (r4 ++ ext) := by
                      rw [skipWs_append_of_ne_nil r3 ext (by rw [hsw3]; simp), hsw3]
                      rfl
                    rw [hswy]
                    try dsimp only
                    by_cases hc2 : c2 = rbrace
                    · simp only [hc2, if_true] at h ⊢
                      simp only [Option.some_inj, Prod.mk.injEq] at h
                      simp [← h.1, ← h.2]
                    · simp only [hc2, if_false] at h ⊢
                      by_cases hc3 : c2 = ','
                      · simp only [hc3, if_true] at h ⊢
                        rcases hpm : parseMembers f r4 with _ | ⟨mv2r⟩ <;> rw [hpm] at h
                        · simp at h
                        · rcases mv2r with ⟨mv2, r5⟩
                          rcases mv2 with _ | _ | _ | _ | _ | ms
                          · simp at h
                          · simp at h
                          · simp at h
                          · simp at h
                          · simp at h
                          · rw [IH.2.2.1 r4 (JsonVal.jobj ms) r5 ext hpm]
                            try dsimp only at h ⊢
                            simp only [Option.some_inj, Prod.mk.injEq] at h
                            simp [← h.1, ← h.2]
                      · simp only [hc3, if_false] at h
                        exact Option.noConfusion h
              · simp only [hc1, if_false] at h
                exact Option.noConfusion h
        · simp only [hc, if_false] at h
          exact Option.noConfusion h
    -- parseArrBody
    · intro cs v r ext h
      simp only [parseArrBody] at h
      rcases hsw : skipWs cs with _ | ⟨c, rest⟩
      · rw [hsw] at h; simp at h
      · rw [hsw] at h
        try dsimp only at h
        have hsw2 : skipWs (cs ++ ext) = c :: (rest ++ ext) := by
          rw [skipWs_append_of_ne_nil cs ext (by rw [hsw]; simp), hsw]
          rfl
        simp only [parseArrBody, hsw2]
        by_cases h1 : c = ']'
        · simp only [h1, if_true] at h ⊢
          simp only [Option.some_inj, Prod.mk.injEq] at h
          simp [← h.1, ← h.2]
        · simp only [h1, if_false] at h ⊢
          exact IH.2.2.2.2 (c :: rest) v r ext h
    -- parseElems
    · intro cs v r ext h
      simp only [parseElems] at h
      rcases hpv : parseValue f cs with _ | ⟨evr⟩ <;> rw [hpv] at h
      · simp at h
      · rcases evr with ⟨ev, r1⟩
        try dsimp only at h
        rcases hsw : skipWs r1 with _ | ⟨c, r2⟩
        · rw [hsw] at h; simp at h
        · rw [hsw] at h
          dsimp only at h
          have hr1 : r1 ≠ [] := by
            intro he; subst he
            simp [skipWs, List.dropWhile] at hsw
          simp only [parseElems]
          rw [IH.1 cs ev r1 ext hpv (Or.inr (Or.inl hr1))]
          dsimp only
          have hsw2 : skipWs (r1 ++ ext) = c :: (r2 ++ ext) := by
            rw [skipWs_append_of_ne_nil r1 ext (by rw [hsw]; simp), hsw]
            rfl
          rw [hsw2]
          by_cases h1 : c = ']'
          · simp only [h1, if_true] at h ⊢
            simp only [Option.some_inj, Prod.mk.injEq] at h
            simp [← h.1, ← h.2]
          · simp only [h1, if_false] at h ⊢
            by_cases h2 : c = ','
            · simp only [h2, if_true] at h ⊢
              rcases hpe : parseElems f r2 with _ | ⟨e2r⟩ <;> rw [hpe] at h
              · simp at h
              · rcases e2r with ⟨e2, r3⟩
                rcases e2 with _ | _ | _ | _ | es | _
                · simp at h
                · simp at h
                · simp at h
                · simp at h
                · rw [IH.2.2.2.2 r2 (JsonVal.jarr es) r3 ext hpe]
                  try dsimp only at h ⊢
                  simp only [Option.some_inj, Prod.mk.injEq] at h
                  simp [← h.1, ← h.2]
                · simp at h
            · simp only [h2, if_false] at h
              exact Option.noConfusion h

theorem parseMembers_shape : ∀ (f : Nat) (cs : Chars) (v : JsonVal) (r : Chars),
    parseMembers f cs = some (v, r) → ∃ ms, v = JsonVal.jobj ms := by
  intro f cs v r h
  rcases f with _ | f
  · simp [parseMembers] at h
  · simp only [parseMembers] at h
    rcases hsw : skipWs cs with _ | ⟨c0, rcs⟩ <;> rw [hsw] at h
    · simp at h
    · try dsimp only at h
      split at h
      · rcases hps : parseStringRest f rcs with _ | ⟨key, r1⟩ <;> rw [hps] at h
        · simp at h
        · try dsimp only at h
          rcases hsw1 : skipWs r1 with _ | ⟨c1, r2⟩ <;> rw [hsw1] at h
          · simp at h
          · try dsimp only at h
            split at h
            · rcases hpv : parseValue f r2 with _ | ⟨⟨mv, r3⟩⟩ <;> rw [hpv] at h
              · simp at h
              · try dsimp only at h
                rcases hsw3 : skipWs r3 with _ | ⟨c2, r4⟩ <;> rw [hsw3] at h
                · simp at h
                · try dsimp only at h
                  split at h
                  · simp only [Option.some_inj, Prod.mk.injEq] at h
                    exact ⟨[(key, mv)], h.1.symm⟩
                  · split at h
                    · rcases hpm : parseMembers f r4 with _ | ⟨⟨mv2, r5⟩⟩ <;> rw [hpm] at h
                      · simp at h
                      · rcases mv2 with _ | _ | _ | _ | _ | ms
                        · simp at h
                        · simp at h
                        · simp at h
                        · simp at h
                        · simp at h
                        · simp only [Option.some_inj, Prod.mk.injEq] at h
                          exact ⟨(key, mv) :: ms, h.1.symm⟩
                    · simp at h
            · simp at h
      · simp at h

theorem parseObjBody_shape : ∀ (f : Nat) (cs : Chars) (v : JsonVal) (r : Chars),
    parseObjBody f cs = some (v, r) → ∃ ms, v = JsonVal.jobj ms := by
  intro f cs v r h
  rcases f with _ | f
  · simp [parseObjBody] at h
  · simp only [parseObjBody] at h
    rcases hsw : skipWs cs with _ | ⟨c, rest⟩ <;> rw [hsw] at h
    · simp at h
    · try dsimp only at h
      split at h
      · simp only [Option.some_inj, Prod.mk.injEq] at h
        exact ⟨[], h.1.symm⟩
      · exact parseMembers_shape f (c :: rest) v r h

theorem parseElems_shape : ∀ (f : Nat) (cs : Chars) (v : JsonVal) (r : Chars),
    parseElems f cs = some (v, r) → ∃ es, v = JsonVal.jarr es := by
  intro f cs v r h
  rcases f with _ | f
  · simp [parseElems] at h
  · simp only [parseElems] at h
    rcases hpv : parseValue f cs with _ | ⟨⟨ev, r1⟩⟩ <;> rw [hpv] at h
    · simp at h
    · try dsimp only at h
      rcases hsw : skipWs r1 with _ | ⟨c, r2⟩ <;> rw [hsw] at h
      · simp at h
      · try dsimp only at h
        split at h
        · simp only [Option.some_inj, Prod.mk.injEq] at h
          exact ⟨[ev], h.1.symm⟩
        · split at h
          · rcases hpe : parseElems f r2 with _ | ⟨⟨e2, r3⟩⟩ <;> rw [hpe] at h
            · simp at h
            · rcases e2 with _ | _ | _ | _ | es | _
              · simp at h
              · simp at h
              · simp at h
              · simp at h
              · simp only [Option.some_inj, Prod.mk.injEq] at h
                exact ⟨ev :: es, h.1.symm⟩
              · simp at h
          · simp at h

theorem parseArrBody_shape : ∀ (f : Nat) (cs : Chars) (v : JsonVal) (r : Chars),
    parseArrBody f cs = some (v, r) → ∃ es, v = JsonVal.jarr es := by
  intro f cs v r h
  rcases f with _ | f
  · simp [parseArrBody] at h
  · simp only [parseArrBody] at h
    rcases hsw : skipWs cs with _ | ⟨c, rest⟩ <;> rw [hsw] at h
    · simp at h
    · try dsimp only at h
      split at h
      · simp only [Option.some_inj, Prod.mk.injEq] at h
        exact ⟨[], h.1.symm⟩
      · exact parseElems_shape f (c :: rest) v r h

theorem parseValue_num_src : ∀ (f : Nat) (cs : Chars) (lex r : Chars),
    parseValue f cs = some (.jnum lex, r) →
    ∃ c rest, skipWs cs = c :: rest ∧ parseNumber (c :: rest) = some (lex, r) := by
  intro f cs lex r h
  rcases f with _ | f
  · simp [parseValue] at h
  · simp only [parseValue] at h
    rcases hsw : skipWs cs with _ | ⟨c, rest⟩ <;> rw [hsw] at h
    · simp at h
    · try dsimp only at h
      refine ⟨c, rest, rfl, ?_⟩
      split at h
      · obtain ⟨ms, hms⟩ := parseObjBody_shape f rest _ r h
        exact absurd hms (by simp)
      · split at h
        · obtain ⟨es, hes⟩ := parseArrBody_shape f rest _ r h
          exact absurd hes (by simp)
        · split at h
          · rcases hps : parseStringRest f rest with _ | ⟨s1, r1⟩ <;> rw [hps] at h
            · simp at h
            · simp at h
          · split at h
            · split at h
              · simp at h
              · exact Option.noConfusion h
            · split at h
              · split at h
                · simp at h
                · exact Option.noConfusion h
              · split at h
                · split at h
                  · simp at h
                  · exact Option.noConfusion h
                · split at h
                  · rcases hpn : parseNumber (c :: rest) with _ | ⟨lex2, r2⟩ <;> rw [hpn] at h
                    · simp at h
                    · simp only [Option.map_some', Option.some_inj, Prod.mk.injEq,
                        JsonVal.jnum.injEq] at h
                      rw [h.1, h.2]
                  · exact Option.noConfusion h

theorem isNumChar_not_ws (c : Char) (h : isNumChar c = true) : isJsonWs c = false := by
  by_contra hw
  rw [Bool.not_eq_false] at hw
  simp only [isJsonWs, Bool.or_eq_true, decide_eq_true_eq] at hw
  rcases hw with ((hw | hw) | hw) | hw <;> (subst hw; simp [isNumChar] at h)

theorem trimWs_all_ws (cs : Chars) (h : ∀ x ∈ cs, isJsonWs x = true) :
    trimWs cs = [] := by
  simp only [trimWs]
  rw [dropWhile_all_eq_nil cs h]
  simp [List.dropWhile]

theorem trimWs_ws_prefix (a b : Chars) (h : ∀ x ∈ a, isJsonWs x = true) :
    trimWs (a ++ b) = trimWs b := by
  simp only [trimWs]
  rw [dropWhile_append_all a b h]

theorem trimWs_no_ws (l : Chars) (h : ∀ x ∈ l, isJsonWs x = false) :
    trimWs l = l := by
  have h1 : l.dropWhile isJsonWs = l := by
    rcases l with _ | ⟨c, t⟩
    · rfl
    · simp [List.dropWhile, h c (by simp)]
  have h2 : l.reverse.dropWhile isJsonWs = l.reverse := by
    rcases hr : l.reverse with _ | ⟨c, t⟩
    · rfl
    · have hc : isJsonWs c = false := h c (List.mem_reverse.mp (by rw [hr]; simp))
      simp [List.dropWhile, hc]
  simp only [trimWs, h1, h2, List.reverse_reverse]

theorem jsonFuel_mono (p q : Chars) : jsonFuel p ≤ jsonFuel (p ++ q) := by
  simp only [jsonFuel, List.length_append]
  omega

theorem jsonParse_prefix (p q : Chars) (v w : JsonVal)
    (hp : jsonParse p = some v) (hbr : trimEndsWithRBrace p = true)
    (hpq : jsonParse (p ++ q) = some w) :
    w = v ∧ (∀ x ∈ q, isJsonWs x = true) := by
  simp only [jsonParse] at hp hpq
  rcases hv : parseValue (jsonFuel p) p with _ | ⟨v0, r⟩ <;> rw [hv] at hp
  · simp at hp
  · try dsimp only at hp
    split at hp
    case isFalse => exact Option.noConfusion hp
    case isTrue hr =>
    have hv0 : v0 = v := Option.some.inj hp
    subst hv0
    have hside : q = [] ∨ r ≠ [] ∨ v0.isNum = false := by
      by_cases hnum : v0.isNum = true
      · rcases v0 with _ | b | s | lex | els | ms <;> simp [JsonVal.isNum] at hnum
        right; left
        intro hrnil
        subst hrnil
        obtain ⟨c, rest, hsw, hpn⟩ := parseValue_num_src _ _ _ _ hv
        obtain ⟨hcs, hlexne, hall⟩ := parseNumber_eq _ _ _ hpn
        have hskip : skipWs p = lex := by rw [hsw, hcs, List.append_nil]
        have htw : trimWs p = lex := by
          have hsplit : p = p.takeWhile isJsonWs ++ skipWs p := by
            rw [skipWs, List.takeWhile_append_dropWhile]
          rw [hsplit, hskip, trimWs_ws_prefix _ _ (fun x hx => List.mem_takeWhile_imp hx),
            trimWs_no_ws _ (fun x hx => isNumChar_not_ws x (hall x hx))]
        rw [trimEndsWithRBrace, htw] at hbr
        have hmem : rbrace ∈ lex :=
          List.mem_of_mem_getLast? (Option.mem_def.mpr (of_decide_eq_true hbr))
        have := hall rbrace hmem
        simp [isNumChar, rbrace] at this
      · right; right; exact Bool.not_eq_true _ ▸ (by simpa using hnum)
    have hext := (parseValue_extend_all (jsonFuel p) (jsonFuel (p ++ q))
      (jsonFuel_mono p q)).1 p v0 r q hv hside
    rw [hext] at hpq
    try dsimp only at hpq
    split at hpq
    case isFalse => exact Option.noConfusion hpq
    case isTrue hr2 =>
    have hrws : ∀ x ∈ r, isJsonWs x = true := all_ws_of_skipWs_eq_nil r hr
    rw [skipWs_append_of_all_ws r q hrws] at hr2
    exact ⟨(Option.some.inj hpq).symm, all_ws_of_skipWs_eq_nil q hr2⟩

theorem flushCond_all_ws (b : Chars) (h : ∀ x ∈ b, isJsonWs x = true) :
    flushCond b = false := by
  simp [flushCond, trimEndsWithRBrace, trimWs_all_ws b h]

theorem chatStep_nilbuf_eq (s : Chars) :
    chatStep ⟨false, []⟩ (toolArgDelta 0 s) =
      chatStep ⟨false, entryB []⟩ (toolArgDelta 0 s) := rfl

theorem chatStep_acc_no (a s : Chars) (h : flushCond (a ++ s) = false) :
    chatStep ⟨false, entryB a⟩ (toolArgDelta 0 s) = (⟨false, entryB (a ++ s)⟩, []) := by
  have hE : (if s = [] then ({ id := none, name := none, arguments := a } : BufEntry)
      else { id := none, name := none, arguments := a ++ s }) =
      ({ id := none, name := none, arguments := a ++ s } : BufEntry) := by
    rcases eq_or_ne s [] with h' | h'
    · subst h'; simp
    · simp [h']
  simp only [flushCond, Bool.and_eq_false_iff] at h
  rcases h with h | h
  · simp [chatStep, toolArgDelta, procToolDeltas, procToolDelta, bufGet, bufSet,
      entryB, strTruthy, hE, h]
  · rcases hp : jsonParse (a ++ s) with _ | v
    · simp [chatStep, toolArgDelta, procToolDeltas, procToolDelta, bufGet, bufSet,
        entryB, strTruthy, hE, hp]
    · rw [hp] at h; simp at h

theorem chatStep_acc_yes (a s : Chars) (v : JsonVal)
    (hbr : trimEndsWithRBrace (a ++ s) = true) (hp : jsonParse (a ++ s) = some v) :
    chatStep ⟨false, entryB a⟩ (toolArgDelta 0 s) =
      (⟨false, []⟩, [mkResp [.funcP (str "tool") v none] none]) := by
  have hE : (if s = [] then ({ id := none, name := none, arguments := a } : BufEntry)
      else { id := none, name := none, arguments := a ++ s }) =
      ({ id := none, name := none, arguments := a ++ s } : BufEntry) := by
    rcases eq_or_ne s [] with h' | h'
    · subst h'; simp
    · simp [h']
  simp [chatStep, toolArgDelta, procToolDeltas, procToolDelta, bufGet, bufSet,
    entryB, bufDel, strTruthy, hE, hbr, hp]

theorem chatFold_ws_pieces : ∀ (qs : List Chars) (b : Chars),
    (∀ x ∈ b, isJsonWs x = true) →
    (∀ q ∈ qs, ∀ x ∈ q, isJsonWs x = true) →
    chatFold ⟨false, entryB b⟩ (qs.map (toolArgDelta 0)) =
      (⟨false, entryB (b ++ qs.flatten)⟩, []) := by
  intro qs
  induction qs with
  | nil => intro b _ _; simp [chatFold]
  | cons q qs ih =>
    intro b hb hq
    have hbq : ∀ x ∈ b ++ q, isJsonWs x = true := by
      intro x hx
      rcases List.mem_append.mp hx with hx | hx
      · exact hb x hx
      · exact hq q (by simp) x hx
    have hstep := chatStep_acc_no b q (flushCond_all_ws (b ++ q) hbq)
    simp only [List.map_cons, chatFold, hstep]
    rw [ih (b ++ q) hbq (fun p hp => hq p (by simp [hp]))]
    simp [List.flatten, List.append_assoc]

theorem chatFold_ws_from_empty (qs : List Chars)
    (hq : ∀ q ∈ qs, ∀ x ∈ q, isJsonWs x = true) :
    ∃ buf, chatFold ⟨false, []⟩ (qs.map (toolArgDelta 0)) = (⟨false, buf⟩, []) := by
  rcases qs with _ | ⟨q, qs⟩
  · exact ⟨[], rfl⟩
  · refine ⟨entryB (([] ++ q) ++ qs.flatten), ?_⟩
    have hq0 : ∀ x ∈ ([] : Chars) ++ q, isJsonWs x = true := by
      intro x hx; exact hq q (by simp) x (by simpa using hx)
    have hstep := chatStep_acc_no [] q (flushCond_all_ws _ hq0)
    simp only [List.map_cons, chatFold, chatStep_nilbuf_eq, hstep]
    rw [chatFold_ws_pieces qs ([] ++ q) hq0 (fun p hp => hq p (by simp [hp]))]
    simp

theorem chatFold_cons (st : ChatStreamState) (ch : StreamChunk) (rest : List StreamChunk) :
    chatFold st (ch :: rest) =
      ((chatFold (chatStep st ch).1 rest).1,
        (chatStep st ch).2 ++ (chatFold (chatStep st ch).1 rest).2) := rfl

theorem chatFold_frag : ∀ (ps : List Chars) (a : Chars) (v : JsonVal),
    ps ≠ [] → flushCond a = false →
    trimEndsWithRBrace (a ++ ps.flatten) = true →
    jsonParse (a ++ ps.flatten) = some v →
    ∃ buf, chatFold ⟨false, entryB a⟩ (ps.map (toolArgDelta 0)) =
      (⟨false, buf⟩, [mkResp [.funcP (str "tool") v none] none]) := by
  intro ps
  induction ps with
  | nil => intro a v hne _ _ _; exact absurd rfl hne
  | cons p ps ih =>
    intro a v _ hfa hbr hp
    rcases ps with _ | ⟨p2, ps2⟩
    · simp only [List.flatten, List.flatten_nil, List.append_nil] at hbr hp
      have hstep := chatStep_acc_yes a p v hbr hp
      refine ⟨[], ?_⟩
      simp [chatFold, hstep]
    · set ps1 : List Chars := p2 :: ps2 with hps1
      have hflat : a ++ (p :: ps1).flatten = (a ++ p) ++ ps1.flatten := by
        simp [List.flatten, List.append_assoc]
      rw [hflat] at hbr hp
      by_cases hf : flushCond (a ++ p) = true
      · have hbrp : trimEndsWithRBrace (a ++ p) = true :=
          (Bool.and_eq_true_iff.mp hf).1
        have hsome : (jsonParse (a ++ p)).isSome = true :=
          (Bool.and_eq_true_iff.mp hf).2
        rcases hv' : jsonParse (a ++ p) with _ | v'
        · rw [hv'] at hsome; simp at hsome
        · obtain ⟨hvv, hws⟩ := jsonParse_prefix (a ++ p) ps1.flatten v' v hv' hbrp hp
          subst hvv
          have hstep := chatStep_acc_yes a p v hbrp hv'
          have hq : ∀ q ∈ ps1, ∀ x ∈ q, isJsonWs x = true := by
            intro q hqm x hx
            exact hws x (List.mem_flatten.mpr ⟨q, hqm, hx⟩)
          obtain ⟨buf, hrest⟩ := chatFold_ws_from_empty ps1 hq
          refine ⟨buf, ?_⟩
          rw [List.map_cons, chatFold_cons, hstep]
          dsimp only
          rw [hrest]
          simp
      · have hstep := chatStep_acc_no a p (Bool.not_eq_true _ ▸ (by simpa using hf))
        obtain ⟨buf, hrest⟩ := ih (a ++ p) v (by simp [hps1]) (by simpa using hf) hbr hp
        refine ⟨buf, ?_⟩
        rw [List.map_cons, chatFold_cons, hstep]
        dsimp only
        rw [hrest]
        simp

theorem chatStreamRun_frag (ps : List Chars) (v : JsonVal) (hps : ps ≠ [])
    (hbr : trimEndsWithRBrace ps.flatten = true)
    (hp : jsonParse ps.flatten = some v) :
    chatStreamRun (ps.map (toolArgDelta 0)) =
      [mkResp [.funcP (str "tool") v none] none, mkResp [] (some .STOP)] := by
  rcases ps with _ | ⟨p, ps'⟩
  · exact absurd rfl hps
  · obtain ⟨buf, hfold⟩ := chatFold_frag (p :: ps') [] v (by simp) (by decide)
      (by simpa using hbr) (by simpa using hp)
    have hfold' : chatFold ⟨false, []⟩ ((p :: ps').map (toolArgDelta 0)) =
        (⟨false, buf⟩, [mkResp [.funcP (str "tool") v none] none]) := by
      rw [List.map_cons, chatFold_cons, chatStep_nilbuf_eq, ← chatFold_cons,
        ← List.map_cons]
      exact hfold
    rw [List.map_cons] at hfold'
    simp [chatStreamRun, hfold']

/-- C3: for every argument string that parses as JSON and trim-ends with a
closing brace, delivering it split into any N >= 1 in-order delta fragments
under one positional index yields exactly one completed tool-call fragment,
whose parsed argument content equals the one produced by a single
unfragmented delta. -/
theorem c3_fragmented_args_equiv (ps : List Chars) (v : JsonVal)
    (hps : ps ≠ [])
    (hbr : trimEndsWithRBrace ps.flatten = true)
    (hp : jsonParse ps.flatten = some v) :
    chatStreamRun (ps.map (toolArgDelta 0)) =
      [mkResp [.funcP (str "tool") v none] none, mkResp [] (some .STOP)] ∧
    chatStreamRun [toolArgDelta 0 ps.flatten] =
      [mkResp [.funcP (str "tool") v none] none, mkResp [] (some .STOP)] := by
  refine ⟨chatStreamRun_frag ps v hps hbr hp, ?_⟩
  have := chatStreamRun_frag [ps.flatten] v (by simp) (by simpa using hbr)
    (by simpa using hp)
  simpa using this

/-- C3 witness: the argument text split as two fragments yields the one
parsed tool-call fragment. -/
theorem c3_fragmented_args_equiv_witness :
    trimEndsWithRBrace (List.flatten [str "\x7b\"a\"", str ":1\x7d"]) = true ∧
    jsonParse (List.flatten [str "\x7b\"a\"", str ":1\x7d"]) =
      some (.jobj [(str "a", .jnum (str "1"))]) ∧
    chatStreamRun ([str "\x7b\"a\"", str ":1\x7d"].map (toolArgDelta 0)) =
      [mkResp [.funcP (str "tool") (.jobj [(str "a", .jnum (str "1"))]) none] none,
        mkResp [] (some .STOP)] :=
  ⟨by decide, by decide, (c3_fragmented_args_equiv [str "\x7b\"a\"", str ":1\x7d"]
      (.jobj [(str "a", .jnum (str "1"))]) (by decide) (by decide) (by decide)).1⟩
